import Mathlib

/-!
Shallow embedding of the PDF-anonymization pipeline
(`detection.py`, `anonymizer.py`, `app_fixed.py` / `Anonimatizacao/app.py`,
`Anonimatizacao/mapping_utils.py`, `enhanced_validator.py`, `config.py`)
together with proofs and refutations of the specification claims.

Strings are modelled as `List Char`; Python machine behaviour relevant to the
claims (dict insertion order, stable `sorted`, `str.replace`, `re.sub` with
word boundaries) is embedded explicitly below.
-/

namespace Anon

/-- Strings are lists of characters. -/
abbrev Str := List Char

/-- Shorthand to write character lists with string literals. -/
def lc (s : String) : Str := s.toList

/-- Word character test of Python's `\w` for the character ranges used in this
development: ASCII alphanumerics, underscore, and Latin-1 letters. -/
def pyIsWordChar (c : Char) : Bool :=
  c.isAlphanum || c == '_' ||
    (0xC0 ≤ c.val && c.val ≤ 0xFF && c.val ≠ 0xD7 && c.val ≠ 0xF7)

/-- Lowercasing as performed by Python `str.lower` on ASCII and Latin-1
uppercase letters. -/
def pyToLower (c : Char) : Char :=
  if 'A' ≤ c ∧ c ≤ 'Z' then Char.ofNat (c.val.toNat + 32)
  else if 0xC0 ≤ c.val ∧ c.val ≤ 0xDE ∧ c.val ≠ 0xD7 then Char.ofNat (c.val.toNat + 32)
  else c

/-- Python `str.lower` on a string. -/
def pyLower (s : Str) : Str := s.map pyToLower

/-- Python whitespace test for `str.strip`. -/
def pyIsSpace (c : Char) : Bool :=
  c == ' ' || c == '\t' || c == '\n' || c == '\r' || c == '\x0b' || c == '\x0c'

/-- Python `str.strip()`: remove leading and trailing whitespace. -/
def pyStrip (s : Str) : Str :=
  ((s.dropWhile pyIsSpace).reverse.dropWhile pyIsSpace).reverse

/-!
## The replacement scanner

Both `str.replace(old, new)` and `re.sub(r'\b' + re.escape(old) + r'\b', new, s)`
scan the subject left to right and replace non-overlapping occurrences of the
literal pattern; they differ only in an extra admissibility condition checked
at each candidate occurrence (for `re.sub`, the two word-boundary assertions,
evaluated against the original subject text).  `scanRepl` is the common
scanner; `cond` receives the preceding character of the subject (none at the
start) and the suffix of the subject starting at the candidate occurrence.
-/

/-- Last character of a nonempty pattern, as the new preceding-character state
after skipping over a matched occurrence. -/
def lastChar (k : Str) (prev : Option Char) : Option Char :=
  match k.getLast? with
  | some c => some c
  | none => prev

/-- Fuelled form of the replacement scanner (structural recursion on the fuel,
so that the kernel can evaluate it; `scanRepl` below supplies enough fuel). -/
def scanReplF (cond : Option Char → Str → Bool) (k v : Str) :
    Nat → Option Char → Str → Str
  | 0, _, s => s
  | _ + 1, _, [] => []
  | fuel + 1, prev, c :: s =>
    if k ≠ [] ∧ k.isPrefixOf (c :: s) ∧ cond prev (c :: s) then
      v ++ scanReplF cond k v fuel (lastChar k prev) ((c :: s).drop k.length)
    else
      c :: scanReplF cond k v fuel (some c) s

/-- Generic left-to-right non-overlapping literal replacement scanner. -/
def scanRepl (cond : Option Char → Str → Bool) (k v : Str)
    (prev : Option Char) (s : Str) : Str :=
  scanReplF cond k v s.length prev s

/-- Python `s.replace(k, v)` (for nonempty `k`). -/
def replaceAll (k v s : Str) : Str :=
  scanRepl (fun _ _ => true) k v none s

/-- Word-boundary test of `\b` between an optional preceding character and an
optional following character: the two sides must disagree on word-ness. -/
def atBoundary (prev next : Option Char) : Bool :=
  (match prev with | some c => pyIsWordChar c | none => false) ≠
    (match next with | some c => pyIsWordChar c | none => false)

/-- Admissibility condition of `re.sub(r'\b' + re.escape(k) + r'\b', ...)` at a
candidate occurrence of `k`: a word boundary before the first character of `k`
and after its last character. -/
def wbCond (k : Str) (prev : Option Char) (suffix : Str) : Bool :=
  atBoundary prev suffix.head? && atBoundary (lastChar k none) (suffix.drop k.length).head?

/-- Embedding of `re.sub(r'\b' + re.escape(original) + r'\b', replacement, text)`
as used by `ImprovedAnonymizer._perform_safe_replacement`. -/
def wbSub (k v s : Str) : Str :=
  scanRepl (wbCond k) k v none s

/-- Occurrence of `p` in `s` starting at index `i`. -/
def occursAt (p s : Str) (i : Nat) : Bool :=
  p.isPrefixOf (s.drop i)

/-- Substring (factor) test: `needle` occurs somewhere in `hay`. -/
def strContains (hay needle : Str) : Bool :=
  (List.range (hay.length + 1)).any fun i => needle.isPrefixOf (hay.drop i)

/-- Embedding of `ImprovedAnonymizer._validate_replacement`'s failure test: the
search `re.search(r'\w' + re.escape(repl) + '|' + r'\b' + re.escape(repl) + r'\w',
text_after)` succeeds.  The first alternative asks for an occurrence of `repl`
immediately preceded by a word character; the second for an occurrence at a word
boundary immediately followed by a word character. -/
def validationFails (repl textAfter : Str) : Bool :=
  (List.range textAfter.length).any fun i =>
    occursAt repl textAfter i &&
      ((decide (1 ≤ i) && (match textAfter.get? (i - 1) with
          | some c => pyIsWordChar c | none => false)) ||
        (atBoundary (if i = 0 then none else textAfter.get? (i - 1)) (textAfter.drop i).head? &&
          (match textAfter.get? (i + repl.length) with
            | some c => pyIsWordChar c | none => false)))

/-- Embedding of `ImprovedAnonymizer._perform_safe_replacement`: word-boundary
substitution, falling back to plain `str.replace` on the original text when the
post-hoc validation detects the replacement spliced against a word character. -/
def performSafeReplacement (text original replacement : Str) : Str :=
  let newText := wbSub original replacement text
  if validationFails replacement newText then replaceAll original replacement text
  else newText

/-!
## Stable sorting

Python's `sorted` and `list.sort` are stable.  `sortStable leB` is a stable
insertion sort for a total boolean preorder `leB`: an element is inserted
before the first element of the sorted tail that it `leB`-precedes-or-ties,
which preserves the original relative order of ties. -/

/-- Insert `x` into `l`, before the first element `y` with `leB x y`. -/
def insertStable (leB : α → α → Bool) (x : α) : List α → List α
  | [] => [x]
  | y :: t => if leB x y then x :: y :: t else y :: insertStable leB x t

/-- Stable insertion sort. -/
def sortStable (leB : α → α → Bool) : List α → List α
  | [] => []
  | x :: t => insertStable leB x (sortStable leB t)

/-!
## Entity types and placeholders

`config.ENTITY_TYPES` plus the legacy labels produced by
`detection.encontrar_dados_sensiveis` (`PERSON`, `ORG`, `LOC`, `PHONE`) and the
regex pattern names uppercased give the closed set of entity-type labels that
flow into `ImprovedAnonymizer.anonymize_texts` as categories. -/

/-- Closed set of entity-type labels used by the pipeline. -/
inductive EntityType where
  | PESSOA | ORGANIZACAO | LOCAL | CPF | TELEFONE | EMAIL | CEP | RG | CNPJ
  | PERSON | ORG | LOC | PHONE | MISC
deriving DecidableEq, Repr

/-- Label string of an entity type, as interpolated into the placeholder
format `'[{entity_type}_{counter}]'`. -/
def typeName : EntityType → Str
  | .PESSOA => lc "PESSOA"
  | .ORGANIZACAO => lc "ORGANIZACAO"
  | .LOCAL => lc "LOCAL"
  | .CPF => lc "CPF"
  | .TELEFONE => lc "TELEFONE"
  | .EMAIL => lc "EMAIL"
  | .CEP => lc "CEP"
  | .RG => lc "RG"
  | .CNPJ => lc "CNPJ"
  | .PERSON => lc "PERSON"
  | .ORG => lc "ORG"
  | .LOC => lc "LOC"
  | .PHONE => lc "PHONE"
  | .MISC => lc "MISC"

/-- Decimal digit characters of a natural number, fuelled structural
recursion (most significant first). -/
def natDigitsF : Nat → Nat → Str
  | 0, _ => []
  | fuel + 1, n =>
    if n < 10 then [Nat.digitChar n]
    else natDigitsF fuel (n / 10) ++ [Nat.digitChar (n % 10)]

/-- Decimal digit characters of a natural number (most significant first),
as produced by Python `str(n)`. -/
def natDigits (n : Nat) : Str := natDigitsF (n + 1) n

/-- Numeric value of a decimal digit string (inverse of `natDigits`). -/
def digitsVal (s : Str) : Nat :=
  s.foldl (fun acc c => acc * 10 + (c.toNat - '0'.toNat)) 0

/-- Embedding of `'[{entity_type}_{counter}]'.format(...)` from
`ImprovedAnonymizer._get_next_placeholder`. -/
def placeholderFormat (t : EntityType) (n : Nat) : Str :=
  '[' :: (typeName t ++ '_' :: (natDigits n ++ [']']))

/-!
## The anonymizer (`ImprovedAnonymizer.anonymize_texts`)

The production configuration has `use_placeholders = True`,
`preserve_structure = True` and `check_token_boundaries = True`
(`config.SUBSTITUTION_CONFIG` / `config.VALIDATION_CONFIG`), so the embedded
`anonymizeTexts` is the placeholder-mode engine with safe (word-boundary,
validated) replacement.  Counters are a total function `EntityType → Nat`,
reset to zero at the start of each run (`_reset_counters`). -/

/-- First pass of `anonymize_texts`: build the `original -> replacement`
mapping in item order, skipping duplicate originals, bumping the per-type
counter for each fresh original. -/
def buildMapping : List (Str × EntityType) → (EntityType → Nat) → List (Str × Str) →
    ((EntityType → Nat) × List (Str × Str))
  | [], ctr, acc => (ctr, acc)
  | (orig, cat) :: rest, ctr, acc =>
    if (acc.map Prod.fst).contains orig then
      buildMapping rest ctr acc
    else
      let n := ctr cat + 1
      buildMapping rest (fun t => if t = cat then n else ctr t)
        (acc ++ [(orig, placeholderFormat cat n)])

/-- Comparator for `sorted(keys, key=len, reverse=True)` over mapping entries:
an entry precedes another when its key is at least as long (stable sort keeps
insertion order among equal lengths, matching Python's stable `sorted`). -/
def lenDescBy (f : α → Str) (a b : α) : Bool :=
  decide ((f b).length ≤ (f a).length)

/-- Second pass of `anonymize_texts` on one page: apply
`_perform_safe_replacement` for each mapping entry, longest key first. -/
def anonymizePage (entries : List (Str × Str)) (page : Str) : Str :=
  entries.foldl (fun t kv => performSafeReplacement t kv.1 kv.2) page

/-- Embedding of `ImprovedAnonymizer.anonymize_texts` (placeholder mode).
Returns the rewritten pages and the `original -> replacement` mapping. -/
def anonymizeTexts (pages : List Str) (items : List (Str × EntityType)) :
    List Str × List (Str × Str) :=
  if pages = [] ∨ items = [] then (pages, [])
  else
    let m := (buildMapping items (fun _ => 0) []).2
    let sortedEntries := sortStable (lenDescBy Prod.fst) m
    (pages.map (anonymizePage sortedEntries), m)

/-!
## Fake-value mode (`use_placeholders = False`)

`_generate_fake_value` consults Faker for person/organization/location names
and e-mail numbers; those external draws are modelled by an `oracle` indexed by
the number of generator calls made so far.  The masked kinds return literal
constants.  The `while replacement in valores_usados` retry loop of
`anonymize_texts` is modelled with explicit fuel: the value `none` means the
loop has not terminated within the given fuel. -/

/-- Embedding of `ImprovedAnonymizer._generate_fake_value`.  `idx` is the
index of this generator call into the Faker oracle. -/
def generateFakeValue (oracle : Nat → Str) (idx : Nat) (t : EntityType)
    (_orig : Str) : Str :=
  match t with
  | .PESSOA | .PERSON => lc "[NOME_FICTICIO_" ++ oracle idx ++ lc "]"
  | .ORGANIZACAO | .ORG => lc "[EMPRESA_FICTICIA_" ++ oracle idx ++ lc "]"
  | .LOCAL | .LOC => lc "[LOCAL_FICTICIO_" ++ oracle idx ++ lc "]"
  | .EMAIL => lc "exemplo" ++ oracle idx ++ lc "@email-ficticio.com"
  | .TELEFONE | .PHONE => lc "(XX) XXXXX-XXXX"
  | .CPF => lc "XXX.XXX.XXX-XX"
  | .CNPJ => lc "XX.XXX.XXX/XXXX-XX"
  | .CEP => lc "XXXXX-XXX"
  | .RG => lc "XX.XXX.XXX-X"
  | .MISC => lc "[DADO_ANONIMIZADO]"

/-- Fuelled embedding of the uniqueness retry loop
`while replacement in valores_usados: replacement = self._get_replacement_value(...)`.
Returns the accepted replacement and the next oracle index, or `none` when the
loop performs more than `fuel` iterations. -/
def retryFake (oracle : Nat → Str) (t : EntityType) (orig : Str) (used : List Str) :
    Nat → Nat → Option (Str × Nat)
  | _, 0 => none
  | idx, fuel + 1 =>
    let v := generateFakeValue oracle idx t orig
    if used.contains v then retryFake oracle t orig used (idx + 1) fuel
    else some (v, idx + 1)

/-- Mapping construction of `anonymize_texts` in fake-value mode, with the
`valores_usados` set threaded through and fuel bounding each retry loop. -/
def buildMappingFake (oracle : Nat → Str) (fuel : Nat) :
    List (Str × EntityType) → Nat → List Str → List (Str × Str) →
    Option (List (Str × Str))
  | [], _, _, acc => some acc
  | (orig, cat) :: rest, idx, used, acc =>
    if (acc.map Prod.fst).contains orig then
      buildMappingFake oracle fuel rest idx used acc
    else
      match retryFake oracle cat orig used idx fuel with
      | none => none
      | some (v, idx2) =>
        buildMappingFake oracle fuel rest idx2 (used ++ [v]) (acc ++ [(orig, v)])

/-- Embedding of `anonymize_texts` with `use_placeholders = False`. -/
def anonymizeTextsFake (oracle : Nat → Str) (fuel : Nat) (pages : List Str)
    (items : List (Str × EntityType)) : Option (List Str × List (Str × Str)) :=
  if pages = [] ∨ items = [] then some (pages, [])
  else
    match buildMappingFake oracle fuel items 0 [] [] with
    | none => none
    | some m =>
      let sortedEntries := sortStable (lenDescBy Prod.fst) m
      some (pages.map (anonymizePage sortedEntries), m)

/-!
## The reversal rewrite (`PDFAnonymizerApp.reverter_sessao`)

`mapeamento_inverso = {falso: orig for orig, falso in mapeamento.items()}` is a
Python dict comprehension: a repeated key keeps its first insertion position
but is overwritten with the later value (last original wins).  The inverse keys
are then sorted by length descending (stable) and replaced per page with plain
`str.replace`. -/

/-- Python dict assignment `d[k] = v` on an insertion-ordered association list. -/
def dictInsert (m : List (Str × Str)) (k v : Str) : List (Str × Str) :=
  if (m.map Prod.fst).contains k then
    m.map fun kv => if kv.1 = k then (k, v) else kv
  else m ++ [(k, v)]

/-- The inverse mapping `{falso: orig for orig, falso in mapeamento.items()}`. -/
def buildInverse (m : List (Str × Str)) : List (Str × Str) :=
  m.foldl (fun acc kv => dictInsert acc kv.2 kv.1) []

/-- Reversal rewrite of one page: replace each inverse key (longest first) by
its original with `str.replace`. -/
def revertPage (inv : List (Str × Str)) (page : Str) : Str :=
  (sortStable (lenDescBy Prod.fst) inv).foldl (fun t kv => replaceAll kv.1 kv.2 t) page

/-- Embedding of the session-reversal rewrite of
`PDFAnonymizerApp.reverter_sessao`: invert the mapping (replacement to
original), sort inverse keys by length descending, and rewrite every page. -/
def reverterSessao (pagesAnon : List Str) (m : List (Str × Str)) : List Str :=
  pagesAnon.map (revertPage (buildInverse m))

/-!
## Regular expressions (`config.REGEX_PATTERNS`)

The six patterns are concatenations of character-class repeats, optional
literal separators and word-boundary assertions.  `matchR` is a backtracking
matcher with Python `re` preferences (greedy repeats, option-taken-first),
written in continuation-passing style; `findIter` reproduces `re.finditer`
(leftmost, non-overlapping). -/

/-- Pattern syntax: character class, concatenation, greedy option, greedy
bounded/unbounded character-class repeat, word boundary. -/
inductive RPat where
  | cls (p : Char → Bool)
  | seq (a b : RPat)
  | opt (a : RPat)
  | rep (p : Char → Bool) (lo : Nat) (hi : Option Nat)
  | wb

/-- Try repeat lengths from `i` down to `lo`, longest first. -/
def tryLens (k : Option Char → Str → Option Str) (prev : Option Char) (s : Str)
    (lo : Nat) : Nat → Option Str
  | 0 => if lo = 0 then k prev s else none
  | i + 1 =>
    if i + 1 < lo then none
    else
      match k (lastChar (s.take (i + 1)) prev) (s.drop (i + 1)) with
      | some r => some r
      | none => tryLens k prev s lo i

/-- Backtracking matcher: on success the continuation receives the new
preceding character and the remaining suffix. -/
def matchR : RPat → Option Char → Str → (Option Char → Str → Option Str) → Option Str
  | .cls _, _, [], _ => none
  | .cls p, _, c :: s, k => if p c then k (some c) s else none
  | .seq a b, prev, s, k => matchR a prev s fun p2 s2 => matchR b p2 s2 k
  | .opt a, prev, s, k =>
    match matchR a prev s k with
    | some r => some r
    | none => k prev s
  | .rep p lo hi, prev, s, k =>
    let runLen := (s.takeWhile p).length
    let maxN := match hi with | some h => min h runLen | none => runLen
    if maxN < lo then none else tryLens k prev s lo maxN
  | .wb, prev, s, k => if atBoundary prev s.head? then k prev s else none

/-- Length consumed by a successful match of `r` at the start of `s`, if any. -/
def matchLenAt (r : RPat) (prev : Option Char) (s : Str) : Option Nat :=
  match matchR r prev s fun _ rest => some rest with
  | some rest => some (s.length - rest.length)
  | none => none

/-- Embedding of `re.finditer` (fuelled, structurally recursive): scan left to
right, emit `(start, matched)` for each non-overlapping match, resuming after
each match. -/
def findIterF (r : RPat) : Nat → Option Char → Str → Nat → List (Nat × Str)
  | 0, _, _, _ => []
  | _ + 1, _, [], _ => []
  | fuel + 1, prev, c :: s2, pos =>
    match matchLenAt r prev (c :: s2) with
    | some len =>
      if 0 < len then
        (pos, (c :: s2).take len) ::
          findIterF r fuel (lastChar ((c :: s2).take len) prev) ((c :: s2).drop len) (pos + len)
      else findIterF r fuel (some c) s2 (pos + 1)
    | none => findIterF r fuel (some c) s2 (pos + 1)

/-- All matches of `r` in `s`. -/
def findIter (r : RPat) (s : Str) : List (Nat × Str) :=
  findIterF r s.length none s 0

/-- Empty pattern (matches the empty string). -/
def rEps : RPat := RPat.rep (fun _ => false) 0 (some 0)

/-- Concatenation of a pattern list. -/
def rSeq (l : List RPat) : RPat := l.foldr RPat.seq rEps

/-- Exactly `n` characters of class `p`. -/
def rN (p : Char → Bool) (n : Nat) : RPat := RPat.rep p n (some n)

/-- Optional literal character. -/
def rOptChr (c : Char) : RPat := RPat.opt (RPat.cls (· == c))

/-- Python `\s` for the characters used here. -/
def pyIsSpaceRe (c : Char) : Bool := pyIsSpace c

/-- Digit class `\d` (ASCII). -/
def rD : Char → Bool := Char.isDigit

/-- `r'\b\d{3}\.?\d{3}\.?\d{3}-?\d{2}\b'` (pattern `cpf`). -/
def cpfPat : RPat :=
  rSeq [RPat.wb, rN rD 3, rOptChr '.', rN rD 3, rOptChr '.', rN rD 3,
    rOptChr '-', rN rD 2, RPat.wb]

/-- `r'\b(?:\(?\d{2}\)?\s?)?(?:9\s?)?\d{4,5}-?\d{4}\b'` (pattern `phone`). -/
def phonePat : RPat :=
  rSeq [RPat.wb,
    RPat.opt (rSeq [rOptChr '(', rN rD 2, rOptChr ')', RPat.opt (RPat.cls pyIsSpaceRe)]),
    RPat.opt (rSeq [RPat.cls (· == '9'), RPat.opt (RPat.cls pyIsSpaceRe)]),
    RPat.rep rD 4 (some 5), rOptChr '-', rN rD 4, RPat.wb]

/-- Character class `[a-zA-Z0-9._%+-]` of the e-mail local part. -/
def emailLocalCls (c : Char) : Bool :=
  c.isAlphanum || c == '.' || c == '_' || c == '%' || c == '+' || c == '-'

/-- Character class `[a-zA-Z0-9.-]` of the e-mail domain. -/
def emailDomCls (c : Char) : Bool := c.isAlphanum || c == '.' || c == '-'

/-- ASCII letter class `[a-zA-Z]`. -/
def alphaCls (c : Char) : Bool := c.isAlpha

/-- `r'\b[a-zA-Z0-9._%+-]+@[a-zA-Z0-9.-]+\.[a-zA-Z]{2,}\b'` (pattern `email`). -/
def emailPat : RPat :=
  rSeq [RPat.wb, RPat.rep emailLocalCls 1 none, RPat.cls (· == '@'),
    RPat.rep emailDomCls 1 none, RPat.cls (· == '.'), RPat.rep alphaCls 2 none, RPat.wb]

/-- `r'\b\d{5}-?\d{3}\b'` (pattern `cep`). -/
def cepPat : RPat :=
  rSeq [RPat.wb, rN rD 5, rOptChr '-', rN rD 3, RPat.wb]

/-- `r'\b\d{1,2}\.?\d{3}\.?\d{3}-?[0-9Xx]\b'` (pattern `rg`). -/
def rgPat : RPat :=
  rSeq [RPat.wb, RPat.rep rD 1 (some 2), rOptChr '.', rN rD 3, rOptChr '.', rN rD 3,
    rOptChr '-', RPat.cls (fun c => c.isDigit || c == 'X' || c == 'x'), RPat.wb]

/-- `r'\b\d{2}\.?\d{3}\.?\d{3}/?\d{4}-?\d{2}\b'` (pattern `cnpj`). -/
def cnpjPat : RPat :=
  rSeq [RPat.wb, rN rD 2, rOptChr '.', rN rD 3, rOptChr '.', rN rD 3,
    rOptChr '/', rN rD 4, rOptChr '-', rN rD 2, RPat.wb]

/-- `config.REGEX_PATTERNS` in dict order, with `entity_type = name.upper()`. -/
def regexPatterns : List (EntityType × RPat) :=
  [(.CPF, cpfPat), (.PHONE, phonePat), (.EMAIL, emailPat),
   (.CEP, cepPat), (.RG, rgPat), (.CNPJ, cnpjPat)]

/-!
## Stop terms and entity validation (`config.STOP_TERMS`,
`ImprovedPIIDetector._is_stop_term` / `_validate_entity`). -/

/-- The `config.STOP_TERMS` whitelist. -/
def stopTerms : List Str :=
  [lc "delegacia", lc "delegado", lc "delegada", lc "juiz", lc "juíza",
   lc "promotor", lc "promotora", lc "advogado", lc "advogada", lc "defensor",
   lc "defensora", lc "escrivão", lc "escrivã", lc "testemunha", lc "réu",
   lc "ré", lc "vítima", lc "autor", lc "autora", lc "querelante",
   lc "investigado", lc "investigada", lc "denunciado", lc "denunciada",
   lc "acusado", lc "acusada",
   lc "horário", lc "hora", lc "data", lc "dia", lc "semana", lc "mês",
   lc "ano", lc "manhã", lc "tarde", lc "noite", lc "segunda", lc "terça",
   lc "quarta", lc "quinta", lc "sexta", lc "sábado", lc "domingo",
   lc "janeiro", lc "fevereiro", lc "março", lc "abril", lc "maio",
   lc "junho", lc "julho", lc "agosto", lc "setembro", lc "outubro",
   lc "novembro", lc "dezembro",
   lc "de", lc "da", lc "do", lc "das", lc "dos", lc "em", lc "na", lc "no",
   lc "nas", lc "nos", lc "para", lc "por", lc "com", lc "sem", lc "sob",
   lc "sobre", lc "entre", lc "contra", lc "durante", lc "o", lc "a",
   lc "os", lc "as", lc "um", lc "uma", lc "uns", lc "umas", lc "e", lc "ou",
   lc "mas", lc "porque", lc "quando", lc "onde", lc "como", lc "que", lc "se",
   lc "processo", lc "inquérito", lc "ação", lc "procedimento",
   lc "audiência", lc "sessão", lc "depoimento", lc "oitiva",
   lc "interrogatório", lc "acareação", lc "reconhecimento", lc "perícia",
   lc "laudo", lc "exame", lc "auto", lc "termo", lc "ata", lc "certidão",
   lc "documento", lc "identidade", lc "carteira", lc "passaporte",
   lc "título", lc "registro", lc "comprovante", lc "declaração",
   lc "atestado", lc "relatório",
   lc "tribunal", lc "fórum", lc "vara", lc "comarca", lc "cartório",
   lc "tabelião", lc "ofício", lc "ministério", lc "secretaria",
   lc "departamento", lc "seção", lc "divisão",
   lc "presente", lc "ausente", lc "comparecer", lc "intimar", lc "notificar",
   lc "citar", lc "determinar", lc "ordenar", lc "deferir", lc "indeferir",
   lc "arquivar", lc "protocolar",
   lc "artigo", lc "parágrafo", lc "inciso", lc "alínea", lc "código",
   lc "lei", lc "decreto", lc "resolução", lc "portaria", lc "instrução",
   lc "normativa", lc "regulamento",
   lc "direito", lc "garantia", lc "liberdade", lc "prisão", lc "fiança",
   lc "habeas", lc "corpus", lc "mandado", lc "ordem", lc "decisão",
   lc "sentença", lc "acórdão", lc "recurso",
   lc "informado", lc "comunicado", lc "cientificado", lc "intimado",
   lc "citado", lc "convocado", lc "arrolado", lc "qualificado"]

/-- Embedding of `ImprovedPIIDetector._is_stop_term`:
`text.lower().strip() in self.stop_terms`. -/
def isStopTerm (text : Str) : Bool :=
  stopTerms.contains (pyStrip (pyLower text))

/-- Embedding of `ImprovedPIIDetector._validate_entity`: reject stop terms and
candidates below the confidence threshold `0.5`. -/
def validateEntity (text : Str) (conf : ℚ) : Bool :=
  if isStopTerm text then false
  else if conf < mkRat 1 2 then false
  else true

/-- Detected entity as produced by `ImprovedPIIDetector` (the Python `end` field
is called `stop` here). -/
structure Entity where
  text : Str
  etype : EntityType
  start : Nat
  stop : Nat
  conf : ℚ
deriving DecidableEq, Repr

/-- Embedding of `ImprovedPIIDetector._extract_entities_with_regex`: every
validated regex match, in pattern order, with confidence `1.0`. -/
def extractEntitiesWithRegex (text : Str) : List Entity :=
  regexPatterns.flatMap fun tp =>
    (findIter tp.2 text).filterMap fun m =>
      if validateEntity m.2 1 then
        some ⟨m.2, tp.1, m.1, m.1 + m.2.length, 1⟩
      else none

/-- Output of the external named-entity model for one text: label, surface
text, character span and confidence (`getattr(ent, 'confidence', 1.0)`). -/
structure RawEnt where
  label : Str
  text : Str
  startChar : Nat
  endChar : Nat
  conf : ℚ
deriving DecidableEq, Repr

/-- Label normalization of `_extract_entities_with_spacy`: `PER`/`PERSON` to
`PESSOA`, `ORG` to `ORGANIZACAO`, `LOC`/`GPE` to `LOCAL`, then the
`config.ENTITY_TYPES` table. -/
def mapSpacyLabel (label : Str) : Option EntityType :=
  if label = lc "PER" ∨ label = lc "PERSON" then some .PESSOA
  else if label = lc "ORG" then some .ORGANIZACAO
  else if label = lc "LOC" ∨ label = lc "GPE" then some .LOCAL
  else if label = lc "CPF" then some .CPF
  else if label = lc "TELEFONE" then some .TELEFONE
  else if label = lc "EMAIL" then some .EMAIL
  else if label = lc "CEP" then some .CEP
  else if label = lc "RG" then some .RG
  else if label = lc "CNPJ" then some .CNPJ
  else none

/-- Embedding of `ImprovedPIIDetector._extract_entities_with_spacy`.  The
loaded model is an oracle `Option (List RawEnt)`; `None` is the
model-unavailable state (`self.nlp is None`), for which the method returns the
empty list. -/
def extractEntitiesWithSpacy (model : Option (List RawEnt)) : List Entity :=
  match model with
  | none => []
  | some ents =>
    ents.filterMap fun e =>
      match mapSpacyLabel e.label with
      | some ty =>
        if pyStrip e.text ≠ [] ∧ validateEntity e.text e.conf then
          some ⟨e.text, ty, e.startChar, e.endChar, e.conf⟩
        else none
      | none => none

/-- Sort comparator of `_remove_overlaps`: ascending in the key
`(start, -confidence, -(end - start))`. -/
def entKeyLe (a b : Entity) : Bool :=
  decide (a.start < b.start) ||
    (decide (a.start = b.start) &&
      (decide (b.conf < a.conf) ||
        (decide (a.conf = b.conf) &&
          decide (b.stop - b.start ≤ a.stop - a.start))))

/-- Greedy scan of `_remove_overlaps`: keep an entity only if its start is at
least the end of the last kept entity (`last_end` starts at `-1`). -/
def overlapScan : List Entity → Int → List Entity
  | [], _ => []
  | e :: t, lastEnd =>
    if lastEnd ≤ (e.start : Int) then e :: overlapScan t (e.stop : Int)
    else overlapScan t lastEnd

/-- Embedding of `ImprovedPIIDetector._remove_overlaps`. -/
def removeOverlaps (es : List Entity) : List Entity :=
  if es = [] then es else overlapScan (sortStable entKeyLe es) (-1)

/-- Embedding of `ImprovedPIIDetector.detect_sensitive_data`: spaCy entities
plus regex entities, with overlaps removed. -/
def detectSensitiveData (model : Option (List RawEnt)) (text : Str) : List Entity :=
  if pyStrip text = [] then []
  else removeOverlaps (extractEntitiesWithSpacy model ++ extractEntitiesWithRegex text)

/-!
## Alternation decompositions (for the round-trip proof)

A page being rewritten is decomposed into literal chunks interleaved with
insertion sites.  Each insertion site records the mapping pair `(key, value)`
it realizes and the literal chunk that follows it.  `renderK` reads the
decomposition with every site holding its key (the original page); `renderMix
done` reads it with a site holding its key exactly when its value has already
been reverted (so `renderMix []` is the fully anonymized text). -/

/-- A decomposed text: a leading chunk, then (insertion site, chunk) pairs. -/
structure Alt where
  head : Str
  rest : List ((Str × Str) × Str)

/-- Read the tail of a decomposition, replacing each site whose value is in
`done` by its key and every other site by its value. -/
def joinMix (done : List Str) : List ((Str × Str) × Str) → Str
  | [] => []
  | e :: t => (if e.1.2 ∈ done then e.1.1 else e.1.2) ++ e.2 ++ joinMix done t

/-- Read the tail of a decomposition with every site holding its key. -/
def joinK : List ((Str × Str) × Str) → Str
  | [] => []
  | e :: t => e.1.1 ++ e.2 ++ joinK t

/-- Mixed reading of a decomposition. -/
def renderMix (done : List Str) (A : Alt) : Str := A.head ++ joinMix done A.rest

/-- Original reading of a decomposition. -/
def renderK (A : Alt) : Str := A.head ++ joinK A.rest

/-- A replacement value of placeholder shape. -/
def IsPlaceholder (v : Str) : Prop := ∃ t n, v = placeholderFormat t n

/-- Interior of a placeholder, between the two brackets. -/
def placeholderMid (t : EntityType) (n : Nat) : Str :=
  typeName t ++ '_' :: natDigits n

/-- Invariant of a decomposition: every chunk of literal page text is free of
the `[` character that opens every placeholder. -/
def Chunked (A : Alt) : Prop := '[' ∉ A.head ∧ ∀ e ∈ A.rest, '[' ∉ e.2

/-- Every replacement site of the decomposition carries a pair of the
mapping `m`. -/
def SitesIn (m : List (Str × Str)) (A : Alt) : Prop := ∀ e ∈ A.rest, e.1 ∈ m

/-!
## Mapping persistence (`Anonimatizacao/mapping_utils.py`)

The fallible file operations are embedded by their outcome: `load_mapping`
dispatches on which exception `open`/`json.load` raised, exactly mirroring the
three `except` clauses; `save_mapping` re-raises on `IOError` (modelled as
`Except.error`). -/

/-- Outcome of opening and JSON-decoding the mapping file. -/
inductive LoadOutcome where
  | fileNotFound
  | jsonDecodeError
  | ioError
  | ok (m : List (Str × Str))
deriving DecidableEq

/-- Embedding of `load_mapping`: the `try` body returns the decoded dict; each
of the three `except` clauses prints and returns `None`. -/
def load_mapping : LoadOutcome → Option (List (Str × Str))
  | .ok m => some m
  | .fileNotFound => none
  | .jsonDecodeError => none
  | .ioError => none

/-- Outcome of writing the mapping file. -/
inductive WriteOutcome where
  | ok
  | ioError
deriving DecidableEq

/-- Embedding of `os.path.splitext(p)[0]`: drop the extension after the final
dot of the last path component, when present. -/
def splitextBase (p : Str) : Str :=
  let r := p.reverse
  let pre := r.takeWhile fun c => c ≠ '.' && c ≠ '/'
  if r.get? pre.length = some '.' then (r.drop (pre.length + 1)).reverse else p

/-- Embedding of `save_mapping`: on success return the derived mapping path
`splitext(original_pdf_path)[0] + suffix`; on `IOError` the exception is
re-raised (`raise`), modelled as `Except.error`. -/
def save_mapping (w : WriteOutcome) (originalPdfPath suffix : Str) : Except Unit Str :=
  match w with
  | .ok => .ok (splitextBase originalPdfPath ++ suffix)
  | .ioError => .error ()

/-!
## Enhanced validator checksum gates (`enhanced_validator.py`)

`EnhancedValidator._is_valid_match` filters pattern matches: a small
false-positive list for three pattern kinds, and the CPF/CNPJ digit checksums
for the numeric-ID patterns. -/

/-- Numeric value of a digit character. -/
def charVal (c : Char) : Nat := c.toNat - '0'.toNat

/-- `re.sub(r'[^\d]', '', s)`. -/
def cleanDigits (s : Str) : Str := s.filter Char.isDigit

/-- Embedding of `EnhancedValidator._validate_cpf_checksum`. -/
def validateCpfChecksum (cpf : Str) : Bool :=
  let ds := cleanDigits cpf
  if ds.length ≠ 11 then false
  else if ds = List.replicate 11 (ds.headD ' ') then false
  else
    let digits := ds.map charVal
    let sum1 := (List.range 9).foldl (fun acc i => acc + digits.getD i 0 * (10 - i)) 0
    let check1 := if sum1 * 10 % 11 = 10 then 0 else sum1 * 10 % 11
    let sum2 := (List.range 10).foldl (fun acc i => acc + digits.getD i 0 * (11 - i)) 0
    let check2 := if sum2 * 10 % 11 = 10 then 0 else sum2 * 10 % 11
    decide (digits.getD 9 0 = check1 ∧ digits.getD 10 0 = check2)

/-- Embedding of `EnhancedValidator._validate_cnpj_checksum` (the source only
checks length, digit presence and the all-equal pattern). -/
def validateCnpjChecksum (cnpj : Str) : Bool :=
  let ds := cleanDigits cnpj
  if ds.length ≠ 14 then false
  else if ds = List.replicate 14 (ds.headD ' ') then false
  else
    let digits := ds.map charVal
    decide (0 < digits.foldl (· + ·) 0) &&
      !(digits.all fun d => d = digits.headD 0)

/-- Pattern kinds distinguished by `_is_valid_match`. -/
inductive ValPattern where
  | cpfPattern | cnpjPattern | nomeProprio | suspiciousNumbers | nomeCompleto | other
deriving DecidableEq

/-- Embedding of `EnhancedValidator._is_valid_match`. -/
def isValidMatch (text : Str) : ValPattern → Bool
  | .nomeProprio =>
    !([lc "dr", lc "dra", lc "sr", lc "sra", lc "art", lc "lei", lc "inc",
       lc "par"].contains (pyLower text))
  | .suspiciousNumbers =>
    !([lc "2023", lc "2024", lc "2025", lc "2022", lc "2021",
       lc "2020"].contains (pyLower text))
  | .nomeCompleto =>
    !([lc "Código Civil", lc "Código Penal", lc "Lei Maria",
       lc "Lei Seca"].contains (pyLower text))
  | .cpfPattern => validateCpfChecksum text
  | .cnpjPattern => validateCnpjChecksum text
  | .other => true

/-- Official CPF check-digit: remainder of the weighted sum modulo 11; values
below 2 give digit 0, otherwise 11 minus the remainder. -/
def officialDv (sum : Nat) : Nat :=
  if sum % 11 < 2 then 0 else 11 - sum % 11

/-- The official CPF validation algorithm (reference definition): eleven
digits, not all equal, and both check digits as computed by `officialDv` over
the standard descending weights. -/
def officialCpfValid (cpf : Str) : Bool :=
  let ds := cleanDigits cpf
  if ds.length ≠ 11 then false
  else if ds = List.replicate 11 (ds.headD ' ') then false
  else
    let digits := ds.map charVal
    let sum1 := (List.range 9).foldl (fun acc i => acc + digits.getD i 0 * (10 - i)) 0
    let sum2 := (List.range 10).foldl (fun acc i => acc + digits.getD i 0 * (11 - i)) 0
    decide (digits.getD 9 0 = officialDv sum1 ∧ digits.getD 10 0 = officialDv sum2)

/-- Invariant of `buildMapping`: every accumulated value is a placeholder whose
counter is positive and bounded by the current counter of its type. -/
def MappingInv (ctr : EntityType → Nat) (acc : List (Str × Str)) : Prop :=
  ∀ v ∈ acc.map Prod.snd, ∃ t n, v = placeholderFormat t n ∧ 1 ≤ n ∧ n ≤ ctr t

/-- Recursive dict lookup on an insertion-ordered association list. -/
def lookupD : List (Str × Str) → Str → Option Str
  | [], _ => none
  | kv :: rest, k => if kv.1 = k then some kv.2 else lookupD rest k

/-- The original that the inverse-dict comprehension
`{falso: orig for orig, falso in m.items()}` associates to replacement `v`:
the last mapping entry with value `v` wins. -/
def lastOrigFor : List (Str × Str) → Str → Option Str
  | [], _ => none
  | kv :: rest, v =>
    match lastOrigFor rest v with
    | some o => some o
    | none => if kv.2 = v then some kv.1 else none

/-- The constant masks returned by `_generate_fake_value` for the numeric and
phone kinds, independent of the original text and of Faker. -/
def maskOf : EntityType → Option Str
  | .TELEFONE => some (lc "(XX) XXXXX-XXXX")
  | .PHONE => some (lc "(XX) XXXXX-XXXX")
  | .CPF => some (lc "XXX.XXX.XXX-XX")
  | .CNPJ => some (lc "XX.XXX.XXX/XXXX-XX")
  | .CEP => some (lc "XXXXX-XXX")
  | .RG => some (lc "XX.XXX.XXX-X")
  | _ => none

/-!
## Scanner unfolding lemmas -/

theorem scanReplF_irrel (cond : Option Char → Str → Bool) (k v : Str) :
    ∀ (fuel : Nat) (prev : Option Char) (s : Str), s.length ≤ fuel →
      scanReplF cond k v fuel prev s = scanRepl cond k v prev s := by
  intro fuel
  induction fuel using Nat.strong_induction_on with
  | _ fuel ih =>
    intro prev s hs
    unfold scanRepl
    cases s with
    | nil => cases fuel <;> rfl
    | cons c s2 =>
      cases fuel with
      | zero => simp at hs
      | succ fuel =>
        have hlen : s2.length ≤ fuel := by
          simp only [List.length_cons] at hs
          omega
        show scanReplF cond k v (fuel + 1) prev (c :: s2) =
          scanReplF cond k v (s2.length + 1) prev (c :: s2)
        rw [scanReplF, scanReplF]
        by_cases hcond : k ≠ [] ∧ k.isPrefixOf (c :: s2) ∧ cond prev (c :: s2)
        · rw [if_pos hcond, if_pos hcond]
          have hk : 0 < k.length := List.length_pos.mpr hcond.1
          have h1 : ((c :: s2).drop k.length).length ≤ fuel := by
            simp only [List.length_drop, List.length_cons]
            omega
          have h2 : ((c :: s2).drop k.length).length ≤ s2.length := by
            simp only [List.length_drop, List.length_cons]
            omega
          rw [ih fuel (Nat.lt_succ_self _) _ _ h1,
            ih s2.length (Nat.lt_succ_of_le hlen) _ _ h2]
        · rw [if_neg hcond, if_neg hcond]
          rw [ih fuel (Nat.lt_succ_self _) _ _ hlen,
            ih s2.length (Nat.lt_succ_of_le hlen) _ _ (Nat.le_refl _)]

theorem scanRepl_nil (cond : Option Char → Str → Bool) (k v : Str)
    (prev : Option Char) : scanRepl cond k v prev [] = [] := rfl

theorem scanRepl_cons (cond : Option Char → Str → Bool) (k v : Str)
    (prev : Option Char) (c : Char) (s : Str) :
    scanRepl cond k v prev (c :: s) =
      if k ≠ [] ∧ k.isPrefixOf (c :: s) ∧ cond prev (c :: s) then
        v ++ scanRepl cond k v (lastChar k prev) ((c :: s).drop k.length)
      else
        c :: scanRepl cond k v (some c) s := by
  show scanReplF cond k v (s.length + 1) prev (c :: s) = _
  rw [scanReplF]
  by_cases hcond : k ≠ [] ∧ k.isPrefixOf (c :: s) ∧ cond prev (c :: s)
  · rw [if_pos hcond, if_pos hcond]
    have hk : 0 < k.length := List.length_pos.mpr hcond.1
    have hlen : ((c :: s).drop k.length).length ≤ s.length := by
      simp only [List.length_drop, List.length_cons]
      omega
    rw [scanReplF_irrel cond k v s.length _ _ hlen]
  · rw [if_neg hcond, if_neg hcond]
    rw [scanReplF_irrel cond k v s.length _ _ (Nat.le_refl _)]

/-!
## Stable-sort lemmas -/

theorem mem_insertStable (leB : α → α → Bool) (x : α) (l : List α) (z : α) :
    z ∈ insertStable leB x l ↔ z = x ∨ z ∈ l := by
  induction l with
  | nil => simp [insertStable]
  | cons y t ih =>
    rw [insertStable]
    by_cases h : leB x y = true
    · rw [if_pos h]
      simp [List.mem_cons]
    · rw [if_neg h]
      simp only [List.mem_cons, ih]
      tauto

theorem mem_sortStable (leB : α → α → Bool) (l : List α) (z : α) :
    z ∈ sortStable leB l ↔ z ∈ l := by
  induction l with
  | nil => simp [sortStable]
  | cons y t ih => simp [sortStable, mem_insertStable, ih]

/-- Sortedness (chained) of the output of `insertStable`, assuming totality of
the comparator. -/
theorem chain_insertStable (leB : α → α → Bool)
    (htot : ∀ a b, leB a b = true ∨ leB b a = true) (x : α) (l : List α)
    (hl : l.Chain' (fun a b => leB a b = true)) :
    (insertStable leB x l).Chain' (fun a b => leB a b = true) := by
  induction l with
  | nil => simp [insertStable]
  | cons y t ih =>
    rw [insertStable]
    by_cases h : leB x y = true
    · rw [if_pos h]
      exact List.chain'_cons.mpr ⟨h, hl⟩
    · rw [if_neg h]
      have hyx : leB y x = true := (htot x y).resolve_left h
      have hins := ih hl.tail
      refine List.chain'_cons'.mpr ⟨?_, hins⟩
      intro b hb
      cases t with
      | nil =>
        simp only [insertStable, List.head?_cons, Option.mem_def, Option.some.injEq] at hb
        subst hb
        exact hyx
      | cons z t2 =>
        have hyz : leB y z = true := (List.chain'_cons.mp hl).1
        rw [insertStable] at hb
        by_cases h2 : leB x z = true
        · rw [if_pos h2] at hb
          simp only [List.head?_cons, Option.mem_def, Option.some.injEq] at hb
          subst hb
          exact hyx
        · rw [if_neg h2] at hb
          simp only [List.head?_cons, Option.mem_def, Option.some.injEq] at hb
          subst hb
          exact hyz

theorem chain_sortStable (leB : α → α → Bool)
    (htot : ∀ a b, leB a b = true ∨ leB b a = true) (l : List α) :
    (sortStable leB l).Chain' (fun a b => leB a b = true) := by
  induction l with
  | nil => simp [sortStable]
  | cons y t ih => exact chain_insertStable leB htot y _ ih

/-!
## Placeholder injectivity

Placeholders `[TYPE_n]` determine their type and counter: the type name is
letter-only (so the first underscore splits unambiguously) and the decimal
digit string determines the counter. -/

theorem append_cons_inj {c : Char} :
    ∀ {a₁ a₂ r₁ r₂ : Str}, c ∉ a₁ → c ∉ a₂ →
      a₁ ++ c :: r₁ = a₂ ++ c :: r₂ → a₁ = a₂ ∧ r₁ = r₂ := by
  intro a₁
  induction a₁ with
  | nil =>
    intro a₂ r₁ r₂ _ h₂ h
    cases a₂ with
    | nil => simpa using h
    | cons y t =>
      simp only [List.nil_append, List.cons_append, List.cons.injEq] at h
      exact absurd (h.1 ▸ List.mem_cons_self y t) h₂
  | cons x t ih =>
    intro a₂ r₁ r₂ h₁ h₂ h
    cases a₂ with
    | nil =>
      simp only [List.cons_append, List.nil_append, List.cons.injEq] at h
      exact absurd (h.1.symm ▸ List.mem_cons_self x t) h₁
    | cons y t2 =>
      simp only [List.cons_append, List.cons.injEq] at h
      have := ih (fun hc => h₁ (List.mem_cons_of_mem x hc))
        (fun hc => h₂ (List.mem_cons_of_mem y hc)) h.2
      exact ⟨by rw [h.1, this.1], this.2⟩

theorem charVal_digitChar : ∀ d, d < 10 → (Nat.digitChar d).toNat - '0'.toNat = d := by
  decide

theorem digitsVal_append_singleton (xs : Str) (c : Char) :
    digitsVal (xs ++ [c]) = digitsVal xs * 10 + (c.toNat - '0'.toNat) := by
  unfold digitsVal
  rw [List.foldl_append]
  rfl

theorem natDigitsF_val : ∀ (fuel n : Nat), n < fuel →
    digitsVal (natDigitsF fuel n) = n := by
  intro fuel
  induction fuel with
  | zero => intro n h; omega
  | succ fuel ih =>
    intro n h
    rw [natDigitsF]
    by_cases h10 : n < 10
    · rw [if_pos h10]
      show digitsVal [Nat.digitChar n] = n
      have := charVal_digitChar n h10
      unfold digitsVal
      simpa using this
    · rw [if_neg h10, digitsVal_append_singleton]
      have hdiv : n / 10 < fuel := by omega
      rw [ih (n / 10) hdiv]
      have h2 := charVal_digitChar (n % 10) (Nat.mod_lt _ (by norm_num))
      rw [h2]
      omega

theorem natDigits_inj {m n : Nat} (h : natDigits m = natDigits n) : m = n := by
  have hm := natDigitsF_val (m + 1) m (by omega)
  have hn := natDigitsF_val (n + 1) n (by omega)
  unfold natDigits at h
  rw [h, hn] at hm
  omega

theorem typeName_no_underscore : ∀ t : EntityType, '_' ∉ typeName t := by
  intro t
  cases t <;> decide

theorem typeName_inj : ∀ t₁ t₂ : EntityType, typeName t₁ = typeName t₂ → t₁ = t₂ := by
  intro t₁ t₂
  cases t₁ <;> cases t₂ <;> decide

theorem natDigitsF_isDigit : ∀ (fuel n : Nat) (c : Char),
    c ∈ natDigitsF fuel n → n < fuel → c.isDigit = true := by
  intro fuel
  induction fuel with
  | zero => intro n c hc h; omega
  | succ fuel ih =>
    intro n c hc h
    rw [natDigitsF] at hc
    by_cases h10 : n < 10
    · rw [if_pos h10] at hc
      simp only [List.mem_singleton] at hc
      subst hc
      clear h
      revert h10
      revert n
      decide
    · rw [if_neg h10] at hc
      rcases List.mem_append.mp hc with hc2 | hc2
      · exact ih (n / 10) c hc2 (by omega)
      · simp only [List.mem_singleton] at hc2
        subst hc2
        have : n % 10 < 10 := Nat.mod_lt _ (by norm_num)
        revert this
        generalize n % 10 = d
        intro hd
        revert hd
        revert d
        decide

theorem natDigits_isDigit {n : Nat} {c : Char} (hc : c ∈ natDigits n) :
    c.isDigit = true :=
  natDigitsF_isDigit (n + 1) n c hc (by omega)

theorem natDigits_no_rbracket {n : Nat} : ']' ∉ natDigits n := by
  intro hc
  have := natDigits_isDigit hc
  simp at this

theorem placeholderFormat_inj {t₁ t₂ : EntityType} {n₁ n₂ : Nat}
    (h : placeholderFormat t₁ n₁ = placeholderFormat t₂ n₂) : t₁ = t₂ ∧ n₁ = n₂ := by
  unfold placeholderFormat at h
  have h1 : typeName t₁ ++ '_' :: (natDigits n₁ ++ [']']) =
      typeName t₂ ++ '_' :: (natDigits n₂ ++ [']']) := List.cons_injective h
  have h2 := append_cons_inj (typeName_no_underscore t₁) (typeName_no_underscore t₂) h1
  have h3 : natDigits n₁ = natDigits n₂ ∧ ([']'] : Str) = [']'] :=
    List.append_inj' h2.2 rfl
  exact ⟨typeName_inj _ _ h2.1, natDigits_inj h3.1⟩

/-!
## Mapping-value uniqueness (placeholder mode) -/

theorem buildMapping_values_distinct :
    ∀ (items : List (Str × EntityType)) (ctr : EntityType → Nat)
      (acc : List (Str × Str)),
      MappingInv ctr acc → (acc.map Prod.snd).Pairwise (· ≠ ·) →
      ((buildMapping items ctr acc).2.map Prod.snd).Pairwise (· ≠ ·) := by
  intro items
  induction items with
  | nil => intro ctr acc _ hpw; exact hpw
  | cons item rest ih =>
    intro ctr acc hinv hpw
    obtain ⟨orig, cat⟩ := item
    rw [buildMapping]
    by_cases hdup : ((acc.map Prod.fst).contains orig : Bool) = true
    · rw [if_pos hdup]
      exact ih ctr acc hinv hpw
    · rw [if_neg hdup]
      set n := ctr cat + 1 with hn
      apply ih
      · intro v hv
        rw [List.map_append] at hv
        rcases List.mem_append.mp hv with hvo | hvn
        · obtain ⟨t, m, hvm, hm1, hm2⟩ := hinv v hvo
          refine ⟨t, m, hvm, hm1, ?_⟩
          by_cases hteq : t = cat
          · subst hteq
            simp only [eq_self_iff_true, if_true]
            omega
          · simp only [if_neg hteq]; exact hm2
        · simp only [List.map_cons, List.map_nil, List.mem_singleton] at hvn
          exact ⟨cat, n, hvn, by omega, by simp⟩
      · rw [List.map_append]
        apply List.pairwise_append.mpr
        refine ⟨hpw, by simp, ?_⟩
        intro v hvo v2 hvn
        simp only [List.map_cons, List.map_nil, List.mem_singleton] at hvn
        subst hvn
        obtain ⟨t, m, hvm, hm1, hm2⟩ := hinv v hvo
        subst hvm
        intro heq
        obtain ⟨hteq, hneq⟩ := placeholderFormat_inj heq
        subst hteq
        omega

/-- All values of the mapping produced by `anonymize_texts` (placeholder mode)
are placeholders. -/
theorem buildMapping_values_shape :
    ∀ (items : List (Str × EntityType)) (ctr : EntityType → Nat)
      (acc : List (Str × Str)),
      MappingInv ctr acc →
      ∀ v ∈ (buildMapping items ctr acc).2.map Prod.snd,
        ∃ t n, v = placeholderFormat t n ∧ 1 ≤ n := by
  intro items
  induction items with
  | nil =>
    intro ctr acc hinv v hv
    obtain ⟨t, n, h1, h2, _⟩ := hinv v hv
    exact ⟨t, n, h1, h2⟩
  | cons item rest ih =>
    intro ctr acc hinv v hv
    obtain ⟨orig, cat⟩ := item
    rw [buildMapping] at hv
    by_cases hdup : ((acc.map Prod.fst).contains orig : Bool) = true
    · rw [if_pos hdup] at hv
      exact ih ctr acc hinv v hv
    · rw [if_neg hdup] at hv
      refine ih _ _ ?_ v hv
      intro w hw
      rw [List.map_append] at hw
      rcases List.mem_append.mp hw with hwo | hwn
      · obtain ⟨t, m, hwm, hm1, hm2⟩ := hinv w hwo
        refine ⟨t, m, hwm, hm1, ?_⟩
        by_cases hteq : t = cat
        · subst hteq
          simp only [eq_self_iff_true, if_true]
          omega
        · simp only [if_neg hteq]; exact hm2
      · simp only [List.map_cons, List.map_nil, List.mem_singleton] at hwn
        exact ⟨cat, ctr cat + 1, hwn, by omega, by simp⟩

/-!
## Inverse-dict lemmas (the reversal's `mapeamento_inverso`) -/

theorem lookupD_map_update (a : List (Str × Str)) (k v x : Str) :
    lookupD (a.map fun kv => if kv.1 = k then (k, v) else kv) x =
      if x = k then (lookupD a k).map (fun _ => v) else lookupD a x := by
  induction a with
  | nil => by_cases hx : x = k <;> simp [lookupD, hx]
  | cons kv rest ih =>
    simp only [List.map_cons]
    by_cases hk : kv.1 = k
    · rw [if_pos hk]
      by_cases hx : x = k
      · subst hx
        simp [lookupD, hk]
      · have hkx : ¬(k = x) := fun h => hx h.symm
        have hkvx : ¬(kv.1 = x) := hk ▸ hkx
        simp only [lookupD, if_neg hkx, if_neg hkvx, if_neg hx] at ih ⊢
        exact ih
    · rw [if_neg hk]
      by_cases hkx : kv.1 = x
      · have hx : ¬(x = k) := fun h => hk (h ▸ hkx)
        have hkk : ¬(kv.1 = k) := hk
        simp only [lookupD, if_pos hkx, if_neg hkk, if_neg hx]
      · simp only [lookupD, if_neg hkx, if_neg hk] at ih ⊢
        exact ih

theorem contains_iff_lookupD (a : List (Str × Str)) (k : Str) :
    ((a.map Prod.fst).contains k : Bool) = true ↔ lookupD a k ≠ none := by
  induction a with
  | nil => simp [lookupD]
  | cons kv rest ih =>
    simp only [List.map_cons, List.contains_cons]
    by_cases hk : kv.1 = k
    · simp [lookupD, hk]
    · have hb : (k == kv.1) = false := by
        simp only [beq_eq_false_iff_ne, ne_eq]
        exact fun h => hk h.symm
      simp only [lookupD, if_neg hk, hb, Bool.false_or]
      exact ih

theorem lookupD_append (a b : List (Str × Str)) (x : Str) :
    lookupD (a ++ b) x = match lookupD a x with
      | some o => some o
      | none => lookupD b x := by
  induction a with
  | nil => simp [lookupD]
  | cons kv rest ih =>
    simp only [List.cons_append, lookupD]
    by_cases hk : kv.1 = x
    · simp [hk]
    · simp only [if_neg hk]
      exact ih

theorem lookupD_dictInsert (a : List (Str × Str)) (k v x : Str) :
    lookupD (dictInsert a k v) x = if x = k then some v else lookupD a x := by
  unfold dictInsert
  by_cases hc : ((a.map Prod.fst).contains k : Bool) = true
  · rw [if_pos hc, lookupD_map_update]
    by_cases hx : x = k
    · subst hx
      rw [if_pos rfl, if_pos rfl]
      rcases ho : lookupD a x with _ | o
      · exact absurd ho ((contains_iff_lookupD a x).mp hc)
      · simp [ho]
    · rw [if_neg hx, if_neg hx]
  · rw [if_neg hc, lookupD_append]
    by_cases hx : x = k
    · subst hx
      rcases ho : lookupD a x with _ | o
      · simp [lookupD]
      · exfalso
        apply hc
        apply (contains_iff_lookupD a x).mpr
        rw [ho]
        simp
    · have hkx : ¬(k = x) := fun h => hx h.symm
      rcases ho : lookupD a x with _ | o
      · rw [if_neg hx, ← ho]
        simp [lookupD, if_neg hkx, ho]
      · rw [if_neg hx]

theorem lookupD_buildInverse_aux (m : List (Str × Str)) :
    ∀ (acc : List (Str × Str)) (x : Str),
      lookupD (m.foldl (fun a kv => dictInsert a kv.2 kv.1) acc) x =
        match lastOrigFor m x with
        | some o => some o
        | none => lookupD acc x := by
  induction m with
  | nil => intro acc x; simp [lastOrigFor]
  | cons kv rest ih =>
    intro acc x
    simp only [List.foldl_cons, lastOrigFor]
    rw [ih (dictInsert acc kv.2 kv.1) x]
    rcases hrest : lastOrigFor rest x with _ | o
    · simp only [lookupD_dictInsert]
      by_cases hx : x = kv.2
      · subst hx
        simp
      · have hvx : ¬(kv.2 = x) := fun h => hx h.symm
        simp [if_neg hx, if_neg hvx]
    · rfl

/-- The inverse dict used by `reverter_sessao` resolves a duplicated
replacement value to the last original in mapping order. -/
theorem lookupD_buildInverse (m : List (Str × Str)) (x : Str) :
    lookupD (buildInverse m) x = lastOrigFor m x := by
  unfold buildInverse
  rw [lookupD_buildInverse_aux m [] x]
  rcases h : lastOrigFor m x with _ | o <;> simp [lookupD]

theorem contains_true_iff_mem {l : List Str} {a : Str} :
    (l.contains a : Bool) = true ↔ a ∈ l := by
  simp [List.contains, List.elem_iff]

/-!
## Fake-value mode lemmas -/

theorem generateFakeValue_mask {t : EntityType} {msk : Str} (h : maskOf t = some msk)
    (oracle : Nat → Str) (idx : Nat) (orig : Str) :
    generateFakeValue oracle idx t orig = msk := by
  cases t <;> simp [maskOf] at h <;> simp [generateFakeValue, ← h]

theorem retryFake_not_used {oracle : Nat → Str} {t : EntityType} {orig : Str}
    {used : List Str} :
    ∀ {idx fuel : Nat} {v : Str} {idx2 : Nat},
      retryFake oracle t orig used idx fuel = some (v, idx2) →
      (used.contains v : Bool) = false := by
  intro idx fuel
  induction fuel generalizing idx with
  | zero => intro v idx2 h; simp [retryFake] at h
  | succ n ih =>
    intro v idx2 h
    rw [retryFake] at h
    by_cases hc : ((used.contains (generateFakeValue oracle idx t orig)) : Bool) = true
    · rw [if_pos hc] at h
      exact ih h
    · rw [if_neg hc] at h
      simp only [Option.some.injEq, Prod.mk.injEq] at h
      rw [← h.1]
      simpa using hc

theorem retryFake_mask_none {t : EntityType} {msk : Str} (hm : maskOf t = some msk)
    {used : List Str} (hu : (used.contains msk : Bool) = true)
    (oracle : Nat → Str) (orig : Str) :
    ∀ (fuel idx : Nat), retryFake oracle t orig used idx fuel = none := by
  intro fuel
  induction fuel with
  | zero => intro idx; rfl
  | succ n ih =>
    intro idx
    rw [retryFake]
    rw [generateFakeValue_mask hm oracle idx orig, if_pos hu]
    exact ih (idx + 1)

/-- Values accepted by `buildMappingFake` are pairwise distinct: the retry loop
only accepts values outside `valores_usados`, and every accepted value is added
to it. -/
theorem buildMappingFake_values_distinct (oracle : Nat → Str) (fuel : Nat) :
    ∀ (items : List (Str × EntityType)) (idx : Nat) (used : List Str)
      (acc m : List (Str × Str)),
      (∀ v ∈ acc.map Prod.snd, (used.contains v : Bool) = true) →
      (acc.map Prod.snd).Pairwise (· ≠ ·) →
      buildMappingFake oracle fuel items idx used acc = some m →
      (m.map Prod.snd).Pairwise (· ≠ ·) := by
  intro items
  induction items with
  | nil =>
    intro idx used acc m _ hpw h
    simp only [buildMappingFake, Option.some.injEq] at h
    exact h ▸ hpw
  | cons item rest ih =>
    intro idx used acc m hused hpw h
    obtain ⟨orig, cat⟩ := item
    rw [buildMappingFake] at h
    by_cases hdup : ((acc.map Prod.fst).contains orig : Bool) = true
    · rw [if_pos hdup] at h
      exact ih idx used acc m hused hpw h
    · rw [if_neg hdup] at h
      rcases hr : retryFake oracle cat orig used idx fuel with _ | vi
      · rw [hr] at h; exact absurd h (by simp)
      · rw [hr] at h
        obtain ⟨v, idx2⟩ := vi
        refine ih idx2 (used ++ [v]) (acc ++ [(orig, v)]) m ?_ ?_ h
        · intro w hw
          rw [List.map_append] at hw
          rcases List.mem_append.mp hw with hwo | hwn
          · have h1 := hused w hwo
            rw [contains_true_iff_mem] at h1 ⊢
            exact List.mem_append.mpr (Or.inl h1)
          · simp only [List.map_cons, List.map_nil, List.mem_singleton] at hwn
            subst hwn
            rw [contains_true_iff_mem]
            simp
        · rw [List.map_append]
          apply List.pairwise_append.mpr
          refine ⟨hpw, by simp, ?_⟩
          intro w hwo w2 hwn
          simp only [List.map_cons, List.map_nil, List.mem_singleton] at hwn
          subst hwn
          intro heq
          have hv := retryFake_not_used hr
          have := hused w hwo
          rw [heq] at this
          rw [this] at hv
          exact absurd hv (by simp)

/-!
## Detection membership lemmas -/

theorem mem_overlapScan : ∀ (l : List Entity) (lastEnd : Int) (e : Entity),
    e ∈ overlapScan l lastEnd → e ∈ l := by
  intro l
  induction l with
  | nil => intro lastEnd e h; simp [overlapScan] at h
  | cons x t ih =>
    intro lastEnd e h
    rw [overlapScan] at h
    by_cases hc : lastEnd ≤ (x.start : Int)
    · rw [if_pos hc] at h
      rcases List.mem_cons.mp h with he | he
      · exact he ▸ List.mem_cons_self x t
      · exact List.mem_cons_of_mem x (ih _ e he)
    · rw [if_neg hc] at h
      exact List.mem_cons_of_mem x (ih _ e h)

theorem mem_removeOverlaps {es : List Entity} {e : Entity}
    (h : e ∈ removeOverlaps es) : e ∈ es := by
  unfold removeOverlaps at h
  by_cases hn : es = []
  · rwa [if_pos hn] at h
  · rw [if_neg hn] at h
    exact (mem_sortStable entKeyLe es e).mp (mem_overlapScan _ _ e h)

theorem mem_extractRegex_validate {text : Str} {e : Entity}
    (h : e ∈ extractEntitiesWithRegex text) : validateEntity e.text e.conf = true := by
  unfold extractEntitiesWithRegex at h
  simp only [List.mem_flatMap, List.mem_filterMap] at h
  obtain ⟨tp, _, m, _, hm⟩ := h
  by_cases hv : validateEntity m.2 1 = true
  · rw [if_pos hv] at hm
    obtain rfl := Option.some.inj hm
    exact hv
  · rw [if_neg hv] at hm
    exact absurd hm (by simp)

theorem mem_extractSpacy_validate {model : Option (List RawEnt)} {e : Entity}
    (h : e ∈ extractEntitiesWithSpacy model) : validateEntity e.text e.conf = true := by
  unfold extractEntitiesWithSpacy at h
  rcases model with _ | ents
  · simp at h
  · simp only [List.mem_filterMap] at h
    obtain ⟨r, _, hr⟩ := h
    rcases hl : mapSpacyLabel r.label with _ | ty
    · rw [hl] at hr; exact absurd hr (by simp)
    · simp only [hl] at hr
      by_cases hv : pyStrip r.text ≠ [] ∧ validateEntity r.text r.conf = true
      · rw [if_pos hv] at hr
        obtain rfl := Option.some.inj hr
        exact hv.2
      · rw [if_neg hv] at hr
        exact absurd hr (by simp)

theorem validateEntity_not_stop {text : Str} {conf : ℚ}
    (h : validateEntity text conf = true) : isStopTerm text = false := by
  unfold validateEntity at h
  by_cases hs : isStopTerm text = true
  · rw [if_pos hs] at h; exact absurd h (by simp)
  · simpa using hs

/-!
## Overlap-resolution lemmas -/

theorem entKeyLe_start_le {a b : Entity} (h : entKeyLe a b = true) :
    a.start ≤ b.start := by
  unfold entKeyLe at h
  simp only [Bool.or_eq_true, Bool.and_eq_true, decide_eq_true_eq] at h
  rcases h with h | ⟨h, _⟩
  · omega
  · omega

theorem entKeyLe_total (a b : Entity) : entKeyLe a b = true ∨ entKeyLe b a = true := by
  unfold entKeyLe
  simp only [Bool.or_eq_true, Bool.and_eq_true, decide_eq_true_eq]
  rcases Nat.lt_trichotomy a.start b.start with h | h | h
  · exact Or.inl (Or.inl h)
  · rcases lt_trichotomy a.conf b.conf with h2 | h2 | h2
    · exact Or.inr (Or.inr ⟨h.symm, Or.inl h2⟩)
    · rcases Nat.le_total (b.stop - b.start) (a.stop - a.start) with h3 | h3
      · exact Or.inl (Or.inr ⟨h, Or.inr ⟨h2, h3⟩⟩)
      · exact Or.inr (Or.inr ⟨h.symm, Or.inr ⟨h2.symm, h3⟩⟩)
    · exact Or.inl (Or.inr ⟨h, Or.inl h2⟩)
  · exact Or.inr (Or.inl h)

theorem overlapScan_sound :
    ∀ (l : List Entity) (lastEnd : Int),
      (∀ e ∈ l, e.start ≤ e.stop) →
      l.Pairwise (fun a b => a.start ≤ b.start) →
      ((overlapScan l lastEnd).Pairwise (fun a b => a.stop ≤ b.start) ∧
        ∀ e ∈ overlapScan l lastEnd, lastEnd ≤ (e.start : Int)) := by
  intro l
  induction l with
  | nil => intro lastEnd _ _; simp [overlapScan]
  | cons x t ih =>
    intro lastEnd hwf hsort
    rw [overlapScan]
    by_cases hc : lastEnd ≤ (x.start : Int)
    · rw [if_pos hc]
      have hwt : ∀ e ∈ t, e.start ≤ e.stop := fun e he => hwf e (List.mem_cons_of_mem x he)
      have ihx := ih (x.stop : Int) hwt (List.Pairwise.of_cons hsort)
      constructor
      · refine List.pairwise_cons.mpr ⟨?_, ihx.1⟩
        intro b hb
        have := ihx.2 b hb
        exact_mod_cast this
      · intro e he
        rcases List.mem_cons.mp he with he | he
        · exact he ▸ hc
        · have h1 := ihx.2 e he
          have h2 : x.start ≤ x.stop := hwf x (List.mem_cons_self x t)
          have : (x.start : Int) ≤ (x.stop : Int) := by exact_mod_cast h2
          omega
    · rw [if_neg hc]
      have hwt : ∀ e ∈ t, e.start ≤ e.stop := fun e he => hwf e (List.mem_cons_of_mem x he)
      exact ih lastEnd hwt (List.Pairwise.of_cons hsort)

/-!
## The CPF check digit equals the official algorithm -/

theorem checkDigit_eq_officialDv (s : Nat) :
    (if s * 10 % 11 = 10 then 0 else s * 10 % 11) = officialDv s := by
  unfold officialDv
  have h1 : s * 10 % 11 = s % 11 * 10 % 11 := by
    rw [Nat.mul_mod]
  rw [h1]
  have h2 : s % 11 < 11 := Nat.mod_lt _ (by norm_num)
  set r := s % 11 with hr
  interval_cases r <;> simp

theorem cpfChecksum_eq_official (cpf : Str) :
    validateCpfChecksum cpf = officialCpfValid cpf := by
  unfold validateCpfChecksum officialCpfValid
  simp only [checkDigit_eq_officialDv]

theorem overlapScan_sublist :
    ∀ (l : List Entity) (lastEnd : Int), List.Sublist (overlapScan l lastEnd) l := by
  intro l
  induction l with
  | nil => intro lastEnd; simp [overlapScan]
  | cons x t ih =>
    intro lastEnd
    rw [overlapScan]
    by_cases hc : lastEnd ≤ (x.start : Int)
    · rw [if_pos hc]
      exact List.Sublist.cons₂ x (ih _)
    · rw [if_neg hc]
      exact List.Sublist.cons x (ih _)

theorem lenDescBy_total (f : α → Str) (a b : α) :
    lenDescBy f a b = true ∨ lenDescBy f b a = true := by
  unfold lenDescBy
  rcases Nat.le_total (f b).length (f a).length with h | h
  · exact Or.inl (by simpa using h)
  · exact Or.inr (by simpa using h)

theorem pairwise_start_le_sortStable (es : List Entity) :
    (sortStable entKeyLe es).Pairwise (fun a b => a.start ≤ b.start) := by
  have hchain := chain_sortStable entKeyLe entKeyLe_total es
  have hchain2 : (sortStable entKeyLe es).Chain' (fun a b => a.start ≤ b.start) :=
    hchain.imp fun {a b} h => entKeyLe_start_le h
  haveI : IsTrans Entity (fun a b => a.start ≤ b.start) :=
    ⟨fun _ _ _ h1 h2 => le_trans h1 h2⟩
  exact List.chain'_iff_pairwise.mp hchain2

/-!
## Claim theorems -/

/-- Claim C2, as stated, is false: for the spec's own example mapping
`{"João": "[P_1]", "Maria": "[P_1]"}` the reversal rewrite does not report any
ambiguity condition; it returns the text obtained by silently picking one of
the two originals (the last one, "Maria"). -/
theorem C2_counterexample :
    ¬ (reverterSessao [lc "[P_1]"]
          [(lc "João", lc "[P_1]"), (lc "Maria", lc "[P_1]")] ≠ [lc "João"] ∧
       reverterSessao [lc "[P_1]"]
          [(lc "João", lc "[P_1]"), (lc "Maria", lc "[P_1]")] ≠ [lc "Maria"]) := by
  intro h
  exact h.2 (by decide)

/-- Claim C2, amended: the reversal rewrite performs no ambiguity detection;
the inverse dict built by `reverter_sessao` associates a duplicated
replacement value to the LAST original in mapping order, and the rewrite
substitutes that original silently (`{"João": "[P_1]", "Maria": "[P_1]"}`
yields "Maria"). -/
theorem C2_amended :
    (∀ (m : List (Str × Str)) (v : Str),
        lookupD (buildInverse m) v = lastOrigFor m v) ∧
    reverterSessao [lc "[P_1]"]
        [(lc "João", lc "[P_1]"), (lc "Maria", lc "[P_1]")] = [lc "Maria"] :=
  ⟨lookupD_buildInverse, by decide⟩

/-- Claim C3, as stated, is false: the detector's regex extraction applies no
checksum gate, so the correct-length digit string "123.456.789-00", whose
second check digit is wrong, is returned classified as CPF. -/
theorem C3_counterexample :
    ¬ (∀ (text : Str) (e : Entity), e ∈ extractEntitiesWithRegex text →
        e.etype = .CPF → validateCpfChecksum e.text = true) := by
  intro h
  have h2 := h (lc "CPF: 123.456.789-00")
    ⟨lc "123.456.789-00", .CPF, 5, 19, 1⟩ (by decide) rfl
  exact absurd h2 (by decide)

/-- Claim C3, amended: the CPF checksum gate exists only in the enhanced
validator — `_is_valid_match` for the `cpf_pattern` is exactly
`_validate_cpf_checksum`, which agrees with the official check-digit
algorithm — while the detector still returns an invalid-checksum CPF-shaped
match as a CPF entity. -/
theorem C3_amended :
    (∀ s : Str, isValidMatch s .cpfPattern = validateCpfChecksum s) ∧
    (∀ s : Str, validateCpfChecksum s = officialCpfValid s) ∧
    ((⟨lc "123.456.789-00", .CPF, 5, 19, 1⟩ : Entity) ∈
        extractEntitiesWithRegex (lc "CPF: 123.456.789-00") ∧
      validateCpfChecksum (lc "123.456.789-00") = false) :=
  ⟨fun _ => rfl, cpfChecksum_eq_official, by decide, by decide⟩

/-- Claim C4: `_remove_overlaps` sorts candidates by (start ascending,
confidence descending, length descending) — the stable sort output is chained
by exactly that comparator — and for well-formed spans the scan returns a list
ordered by start whose spans are pairwise non-overlapping. -/
theorem C4_overlap_resolution :
    ∀ (es : List Entity), (∀ e ∈ es, e.start ≤ e.stop) →
      ((sortStable entKeyLe es).Chain' (fun a b => entKeyLe a b = true) ∧
       (removeOverlaps es).Pairwise (fun a b => a.start ≤ b.start) ∧
       (removeOverlaps es).Pairwise (fun a b => a.stop ≤ b.start)) := by
  intro es hwf
  refine ⟨chain_sortStable entKeyLe entKeyLe_total es, ?_, ?_⟩
  · unfold removeOverlaps
    by_cases hn : es = []
    · rw [if_pos hn]
      subst hn
      simp
    · rw [if_neg hn]
      exact (pairwise_start_le_sortStable es).sublist (overlapScan_sublist _ _)
  · unfold removeOverlaps
    by_cases hn : es = []
    · rw [if_pos hn]
      subst hn
      simp
    · rw [if_neg hn]
      have hwf2 : ∀ e ∈ sortStable entKeyLe es, e.start ≤ e.stop := fun e he =>
        hwf e ((mem_sortStable entKeyLe es e).mp he)
      exact (overlapScan_sound (sortStable entKeyLe es) (-1) hwf2
        (pairwise_start_le_sortStable es)).1

/-- Witness for C4 at the spec's tie-break example: the two overlapping
candidate spans (0,10) and (5,18) yield exactly one kept span, the one
starting first. -/
theorem C4_witness :
    (∀ e ∈ [(⟨lc "João Silva", .PESSOA, 0, 10, mkRat 9 10⟩ : Entity),
        ⟨lc "Silva Pereira", .PESSOA, 5, 18, mkRat 95 100⟩], e.start ≤ e.stop) ∧
    (removeOverlaps [⟨lc "João Silva", .PESSOA, 0, 10, mkRat 9 10⟩,
        ⟨lc "Silva Pereira", .PESSOA, 5, 18, mkRat 95 100⟩]).Pairwise
      (fun a b => a.stop ≤ b.start) ∧
    removeOverlaps [⟨lc "João Silva", .PESSOA, 0, 10, mkRat 9 10⟩,
        ⟨lc "Silva Pereira", .PESSOA, 5, 18, mkRat 95 100⟩] =
      [⟨lc "João Silva", .PESSOA, 0, 10, mkRat 9 10⟩] :=
  ⟨by decide, (C4_overlap_resolution _ (by decide)).2.2, by decide⟩

/-- Claim C5: mapping keys are applied longest first — the key order used by
`anonymize_texts` is chained by descending key length — and on the spec's
example the longer key "Ana Silva" is replaced as a whole, so the output page
is "[PESSOA_2] chegou" and never contains a corrupted "[PESSOA_1] Silva". -/
theorem C5_longest_match_first :
    (∀ (m : List (Str × Str)),
      (sortStable (lenDescBy Prod.fst) m).Chain'
        (fun a b => b.1.length ≤ a.1.length)) ∧
    (anonymizeTexts [lc "Ana Silva chegou"]
        [(lc "Ana", .PESSOA), (lc "Ana Silva", .PESSOA)]).1 =
      [lc "[PESSOA_2] chegou"] ∧
    ((anonymizeTexts [lc "Ana Silva chegou"]
        [(lc "Ana", .PESSOA), (lc "Ana Silva", .PESSOA)]).1.all
      fun p => !(strContains p (lc "[PESSOA_1] Silva"))) = true := by
  refine ⟨?_, by decide, by decide⟩
  intro m
  have hchain := chain_sortStable (lenDescBy Prod.fst) (lenDescBy_total Prod.fst) m
  exact hchain.imp fun {a b} h => by simpa [lenDescBy] using h

/-- Claim C6: every anonymization run produces a mapping whose values are
pairwise distinct — by counter construction in placeholder mode, and through
the uniqueness retry rule in fake-value mode (whenever the retry loop
terminates). -/
theorem C6_mapping_values_unique :
    (∀ (pages : List Str) (items : List (Str × EntityType)),
      ((anonymizeTexts pages items).2.map Prod.snd).Pairwise (· ≠ ·)) ∧
    (∀ (oracle : Nat → Str) (fuel : Nat) (pages : List Str)
        (items : List (Str × EntityType)) (out : List Str × List (Str × Str)),
      anonymizeTextsFake oracle fuel pages items = some out →
      (out.2.map Prod.snd).Pairwise (· ≠ ·)) := by
  constructor
  · intro pages items
    unfold anonymizeTexts
    by_cases hg : pages = [] ∨ items = []
    · rw [if_pos hg]
      simp
    · rw [if_neg hg]
      exact buildMapping_values_distinct items (fun _ => 0) []
        (fun v hv => absurd hv (by simp)) (by simp)
  · intro oracle fuel pages items out h
    unfold anonymizeTextsFake at h
    by_cases hg : pages = [] ∨ items = []
    · rw [if_pos hg] at h
      obtain rfl := Option.some.inj h
      simp
    · rw [if_neg hg] at h
      rcases hm : buildMappingFake oracle fuel items 0 [] [] with _ | m
      · rw [hm] at h
        exact absurd h (by simp)
      · rw [hm] at h
        obtain rfl := Option.some.inj h
        exact buildMappingFake_values_distinct oracle fuel items 0 [] [] m
          (fun v hv => absurd hv (by simp)) (by simp) hm

/-- Witness for C6's fake-value conjunct at a concrete run that terminates. -/
theorem C6_witness :
    anonymizeTextsFake (fun _ => []) 3 [lc "pg"] [(lc "111", EntityType.CPF)] =
      some ([lc "pg"], [(lc "111", lc "XXX.XXX.XXX-XX")]) ∧
    (([(lc "111", lc "XXX.XXX.XXX-XX")].map Prod.snd).Pairwise (· ≠ ·)) := by
  have h : anonymizeTextsFake (fun _ => []) 3 [lc "pg"] [(lc "111", EntityType.CPF)] =
      some ([lc "pg"], [(lc "111", lc "XXX.XXX.XXX-XX")]) := by decide
  exact ⟨h, C6_mapping_values_unique.2 (fun _ => []) 3 [lc "pg"]
    [(lc "111", EntityType.CPF)] ([lc "pg"], [(lc "111", lc "XXX.XXX.XXX-XX")]) h⟩

/-- Claim C7: detection never returns an entity whose lowercased, trimmed text
is a stop term, whether the candidate came from a regex pattern or from the
named-entity model. -/
theorem C7_stop_term_exclusion :
    ∀ (model : Option (List RawEnt)) (text : Str) (e : Entity),
      e ∈ detectSensitiveData model text → isStopTerm e.text = false := by
  intro model text e h
  unfold detectSensitiveData at h
  by_cases hs : pyStrip text = []
  · rw [if_pos hs] at h
    exact absurd h (by simp)
  · rw [if_neg hs] at h
    have h2 := mem_removeOverlaps h
    rcases List.mem_append.mp h2 with h3 | h3
    · exact validateEntity_not_stop (mem_extractSpacy_validate h3)
    · exact validateEntity_not_stop (mem_extractRegex_validate h3)

set_option maxHeartbeats 1000000 in
/-- Witness for C7: the CPF entity detected in a concrete page is not a stop
term. -/
theorem C7_witness :
    (⟨lc "123.456.789-00", .CPF, 5, 19, 1⟩ : Entity) ∈
      detectSensitiveData none (lc "CPF: 123.456.789-00") ∧
    isStopTerm (lc "123.456.789-00") = false :=
  ⟨by decide, C7_stop_term_exclusion none (lc "CPF: 123.456.789-00")
    ⟨lc "123.456.789-00", .CPF, 5, 19, 1⟩ (by decide)⟩

/-- Claim C8: when the named-entity model is unavailable (`nlp is None`), the
recognizer returns the empty list and detection degrades to exactly the
regex-derived entities after the usual filtering — no exception path exists in
the embedding, which is total. -/
theorem C8_model_unavailable_degrades :
    ∀ (text : Str),
      extractEntitiesWithSpacy none = ([] : List Entity) ∧
      detectSensitiveData none text =
        (if pyStrip text = [] then []
         else removeOverlaps (extractEntitiesWithRegex text)) := by
  intro text
  refine ⟨rfl, ?_⟩
  unfold detectSensitiveData
  by_cases h : pyStrip text = []
  · rw [if_pos h, if_pos h]
  · rw [if_neg h, if_neg h]
    rw [show extractEntitiesWithSpacy none = ([] : List Entity) from rfl,
      List.nil_append]

/-- Claim C9, as stated, is false: `load_mapping` returns the same value
(`None`) for a missing file, malformed JSON content, and any other I/O
failure, so the three failure cases are indistinguishable to the caller. -/
theorem C9_counterexample :
    ¬ (load_mapping .fileNotFound ≠ load_mapping .jsonDecodeError ∧
       load_mapping .fileNotFound ≠ load_mapping .ioError ∧
       load_mapping .jsonDecodeError ≠ load_mapping .ioError) := by
  intro h
  exact h.1 rfl

/-- Claim C9, amended: `load_mapping` collapses all three failure cases to
`None` (the cases are distinguished only in printed log lines), while
`save_mapping` propagates the I/O error to the caller by re-raising and on
success returns the deterministically derived mapping path. -/
theorem C9_amended :
    load_mapping .fileNotFound = none ∧
    load_mapping .jsonDecodeError = none ∧
    load_mapping .ioError = none ∧
    (∀ m, load_mapping (.ok m) = some m) ∧
    (∀ path suffix : Str, save_mapping .ioError path suffix = .error ()) ∧
    (∀ path suffix : Str,
      save_mapping .ok path suffix = .ok (splitextBase path ++ suffix)) :=
  ⟨rfl, rfl, rfl, fun _ => rfl, fun _ _ => rfl, fun _ _ => rfl⟩

/-- Claim C10: in fake-value mode the generator returns a fixed constant mask
for the phone and numeric-document kinds regardless of the original text, and
consequently `anonymize_texts` diverges (no amount of fuel makes the retry
loop terminate) whenever two distinct originals share one of these kinds. -/
theorem C10_fake_mode_masks_diverge :
    (∀ (t : EntityType) (msk : Str), maskOf t = some msk →
      ∀ (oracle : Nat → Str) (idx : Nat) (orig : Str),
        generateFakeValue oracle idx t orig = msk) ∧
    (∀ (t : EntityType) (msk : Str), maskOf t = some msk →
      ∀ (oracle : Nat → Str) (fuel : Nat) (pages : List Str) (a b : Str),
        a ≠ b → pages ≠ [] →
        anonymizeTextsFake oracle fuel pages [(a, t), (b, t)] = none) := by
  constructor
  · intro t msk h oracle idx orig
    exact generateFakeValue_mask h oracle idx orig
  · intro t msk hm oracle fuel pages a b hab hp
    unfold anonymizeTextsFake
    rw [if_neg (by simp [hp])]
    have hbm : buildMappingFake oracle fuel [(a, t), (b, t)] 0 [] [] = none := by
      simp only [buildMappingFake]
      rw [if_neg (by simp)]
      cases fuel with
      | zero => rfl
      | succ n =>
        rw [retryFake]
        rw [generateFakeValue_mask hm]
        rw [if_neg (by simp)]
        simp only [buildMappingFake]
        have hba : ¬ ((((([] : List (Str × Str)) ++ [(a, msk)]).map Prod.fst).contains b) = true) := by
          simp only [List.nil_append, List.map_cons, List.map_nil, List.contains_cons,
            List.contains_nil, Bool.or_false]
          simp only [beq_eq_false_iff_ne, ne_eq, Bool.not_eq_true]
          exact fun h => hab h.symm
        rw [if_neg hba]
        rw [retryFake_mask_none hm (by simp [contains_true_iff_mem]) oracle b (n + 1) 1]
    rw [hbm]

/-- Witness for C10 at the CPF kind with two concrete distinct originals. -/
theorem C10_witness :
    maskOf .CPF = some (lc "XXX.XXX.XXX-XX") ∧
    anonymizeTextsFake (fun _ => []) 7 [lc "pg"]
      [(lc "111.111.111-11", .CPF), (lc "222.222.222-22", .CPF)] = none :=
  ⟨rfl, C10_fake_mode_masks_diverge.2 .CPF (lc "XXX.XXX.XXX-XX") rfl
    (fun _ => []) 7 [lc "pg"] (lc "111.111.111-11") (lc "222.222.222-22")
    (by decide) (by decide)⟩

/-!
## Placeholder shape lemmas (round-trip infrastructure) -/

theorem placeholderFormat_decomp (t : EntityType) (n : Nat) :
    placeholderFormat t n = '[' :: (placeholderMid t n ++ [']']) := by
  unfold placeholderFormat placeholderMid
  simp [List.append_assoc]

theorem typeName_no_brackets : ∀ t : EntityType, ∀ c ∈ typeName t, c ≠ '[' ∧ c ≠ ']' := by
  intro t
  cases t <;> decide

theorem isDigit_ne_lbracket {c : Char} (h : c.isDigit = true) : c ≠ '[' := by
  rintro rfl
  exact absurd h (by decide)

theorem isDigit_ne_rbracket {c : Char} (h : c.isDigit = true) : c ≠ ']' := by
  rintro rfl
  exact absurd h (by decide)

theorem placeholderMid_no_brackets (t : EntityType) (n : Nat) :
    ∀ c ∈ placeholderMid t n, c ≠ '[' ∧ c ≠ ']' := by
  intro c hc
  unfold placeholderMid at hc
  rcases List.mem_append.mp hc with h | h
  · exact typeName_no_brackets t c h
  · rcases List.mem_cons.mp h with h2 | h2
    · subst h2
      exact ⟨by decide, by decide⟩
    · have hd := natDigits_isDigit h2
      exact ⟨isDigit_ne_lbracket hd, isDigit_ne_rbracket hd⟩

theorem placeholder_ne_nil {v : Str} (h : IsPlaceholder v) : v ≠ [] := by
  obtain ⟨t, n, rfl⟩ := h
  rw [placeholderFormat_decomp]
  simp

theorem placeholder_prefix_eq {t₁ n₁ t₂ n₂} :
    placeholderFormat t₁ n₁ <+: placeholderFormat t₂ n₂ →
      placeholderFormat t₁ n₁ = placeholderFormat t₂ n₂ := by
  intro h
  obtain ⟨r, hr⟩ := h
  rw [placeholderFormat_decomp, placeholderFormat_decomp] at hr
  simp only [List.cons_append, List.cons.injEq, true_and] at hr
  have h2 : placeholderMid t₁ n₁ ++ ']' :: r = placeholderMid t₂ n₂ ++ ']' :: [] := by
    simpa [List.append_assoc] using hr
  have h3 := append_cons_inj
    (fun hc => ((placeholderMid_no_brackets t₁ n₁ ']' hc).2 rfl))
    (fun hc => ((placeholderMid_no_brackets t₂ n₂ ']' hc).2 rfl)) h2
  rw [placeholderFormat_decomp, placeholderFormat_decomp, h3.1]

theorem placeholder_prefix_append {v₁ v₂ z : Str} (h₁ : IsPlaceholder v₁)
    (h₂ : IsPlaceholder v₂) (h : v₁ <+: v₂ ++ z) : v₁ = v₂ := by
  obtain ⟨t₁, n₁, rfl⟩ := h₁
  obtain ⟨t₂, n₂, rfl⟩ := h₂
  rcases List.prefix_or_prefix_of_prefix h (List.prefix_append _ _) with h2 | h2
  · exact placeholder_prefix_eq h2
  · exact (placeholder_prefix_eq h2).symm

theorem placeholder_drop_no_lbracket {v : Str} (hv : IsPlaceholder v) {j : Nat}
    (hj : 1 ≤ j) : ∀ c ∈ v.drop j, c ≠ '[' := by
  obtain ⟨t, n, rfl⟩ := hv
  intro c hc
  rw [placeholderFormat_decomp] at hc
  have hmem : c ∈ placeholderMid t n ++ [']'] := by
    have hdrop : ('[' :: (placeholderMid t n ++ [']'])).drop j =
        (placeholderMid t n ++ [']']).drop (j - 1) := by
      cases j with
      | zero => omega
      | succ j2 => simp
    rw [hdrop] at hc
    exact List.mem_of_mem_drop hc
  rcases List.mem_append.mp hmem with h | h
  · exact (placeholderMid_no_brackets t n c h).1
  · simp only [List.mem_singleton] at h
    subst h
    decide

theorem placeholder_rbracket_mem_drop {v : Str} (hv : IsPlaceholder v) {j : Nat}
    (hj : j < v.length) : ']' ∈ v.drop j := by
  obtain ⟨t, n, rfl⟩ := hv
  rw [placeholderFormat_decomp] at hj ⊢
  have he : ('[' :: (placeholderMid t n ++ [']'])) =
      ('[' :: placeholderMid t n) ++ [']'] := by simp
  rw [he] at hj ⊢
  have hle : j ≤ ('[' :: placeholderMid t n).length := by
    simp only [List.length_append, List.length_cons, List.length_nil] at hj ⊢
    omega
  rw [List.drop_append_of_le_length hle]
  exact List.mem_append.mpr (Or.inr (by simp))

theorem placeholder_head {v : Str} (hv : IsPlaceholder v) :
    ∃ mid, v = '[' :: mid := by
  obtain ⟨t, n, rfl⟩ := hv
  exact ⟨_, placeholderFormat_decomp t n⟩

/-!
## Prefix and infix helpers -/

theorem prefix_append_cases {s a b : Str} (h : s <+: a ++ b) :
    s <+: a ∨ ∃ s2, s = a ++ s2 ∧ s2 <+: b := by
  induction a generalizing s with
  | nil => exact Or.inr ⟨s, rfl, by simpa using h⟩
  | cons x a2 ih =>
    cases s with
    | nil => exact Or.inl List.nil_prefix
    | cons y s2 =>
      rw [List.cons_append] at h
      obtain ⟨rfl, h3⟩ := List.cons_prefix_cons.mp h
      rcases ih h3 with h4 | ⟨s3, rfl, h5⟩
      · exact Or.inl (List.cons_prefix_cons.mpr ⟨rfl, h4⟩)
      · exact Or.inr ⟨s3, by simp, h5⟩

theorem not_prefix_head {a b : Char} {p w z : Str} (hab : a ≠ b) :
    ¬ ((a :: p) <+: (b :: w) ++ z) := by
  rw [List.cons_append]
  intro h
  exact hab (List.cons_prefix_cons.mp h).1

theorem prefix_append_left {x l r : Str} (h : l <+: r) : x ++ l <+: x ++ r := by
  obtain ⟨t, ht⟩ := h
  exact ⟨t, by rw [List.append_assoc, ht]⟩

theorem infix_of_prefix_drop {p w : Str} {j : Nat} (h : p <+: w.drop j) : p <:+: w :=
  h.isInfix.trans (List.drop_suffix j w).isInfix

theorem lastChar_cons (c : Char) (w : Str) (prev : Option Char) :
    lastChar (c :: w) prev = lastChar w (some c) := by
  cases w with
  | nil => rfl
  | cons d w2 =>
    unfold lastChar
    rw [List.getLast?_cons_cons]
    cases hgl : (d :: w2).getLast? with
    | none => simp at hgl
    | some x => rfl

/-!
## Scanner traversal lemmas -/

theorem scanRepl_skip (cond : Option Char → Str → Bool) (k v : Str) :
    ∀ (w z : Str) (prev : Option Char),
      (∀ j, j < w.length → ¬ (k <+: (w.drop j ++ z))) →
      scanRepl cond k v prev (w ++ z) = w ++ scanRepl cond k v (lastChar w prev) z := by
  intro w
  induction w with
  | nil =>
    intro z prev _
    simp [lastChar]
  | cons c w2 ih =>
    intro z prev hnm
    rw [List.cons_append, scanRepl_cons]
    have h0 : ¬ (k <+: (c :: (w2 ++ z))) := by
      have h1 := hnm 0 (by simp)
      simpa using h1
    have hcond : ¬ (k ≠ [] ∧ k.isPrefixOf (c :: (w2 ++ z)) = true ∧
        cond prev (c :: (w2 ++ z)) = true) := by
      intro hc
      exact h0 (List.isPrefixOf_iff_prefix.mp hc.2.1)
    rw [if_neg hcond]
    rw [ih z (some c) (fun j hj => by
      have h2 := hnm (j + 1) (by simpa using Nat.succ_lt_succ hj)
      simpa using h2)]
    rw [lastChar_cons]
    simp

theorem scanRepl_head (cond : Option Char → Str → Bool) (k v z : Str)
    (prev : Option Char) (hk : k ≠ []) (hcond : cond prev (k ++ z) = true) :
    scanRepl cond k v prev (k ++ z) = v ++ scanRepl cond k v (lastChar k prev) z := by
  cases k with
  | nil => exact absurd rfl hk
  | cons a k2 =>
    rw [List.cons_append, scanRepl_cons]
    have hpre : (a :: k2).isPrefixOf (a :: (k2 ++ z)) = true :=
      List.isPrefixOf_iff_prefix.mpr ⟨z, by simp⟩
    have hcond2 : cond prev (a :: (k2 ++ z)) = true := by
      rw [← List.cons_append]
      exact hcond
    rw [if_pos ⟨hk, hpre, hcond2⟩]
    have hdrop : (a :: (k2 ++ z)).drop (a :: k2).length = z := by
      simp only [List.length_cons, List.drop_succ_cons]
      exact List.drop_left k2 z
    rw [hdrop]

theorem mix_prefix_to_K :
    ∀ (rest : List ((Str × Str) × Str)) (done : List Str) (s : Str),
      '[' ∉ s → (∀ e ∈ rest, IsPlaceholder e.1.2) →
      s <+: joinMix done rest → s <+: joinK rest := by
  intro rest
  induction rest with
  | nil =>
    intro done s _ _ h
    simpa [joinMix, joinK] using h
  | cons e t ih =>
    intro done s hnb hpl h
    cases s with
    | nil => exact List.nil_prefix
    | cons c s1 =>
      rw [joinMix] at h
      rw [joinK]
      by_cases hdone : e.1.2 ∈ done
      · rw [if_pos hdone] at h
        rcases prefix_append_cases h with h1 | ⟨s2, hs2, h2⟩
        · exact h1.trans (List.prefix_append _ _)
        · have hnb2 : '[' ∉ s2 := by
            intro hc
            apply hnb
            rw [hs2]
            exact List.mem_append.mpr (Or.inr hc)
          have h5 := ih done s2 hnb2 (fun e2 he2 => hpl e2 (List.mem_cons_of_mem e he2)) h2
          rw [hs2]
          exact prefix_append_left h5
      · rw [if_neg hdone] at h
        exfalso
        obtain ⟨mid, hmid⟩ := placeholder_head (hpl e (List.mem_cons_self e t))
        rw [hmid, List.append_assoc, List.cons_append] at h
        have := (List.cons_prefix_cons.mp h).1
        apply hnb
        rw [this]
        exact List.mem_cons_self _ _

theorem renderMix_full :
    ∀ (rest : List ((Str × Str) × Str)) (done : List Str),
      (∀ e ∈ rest, e.1.2 ∈ done) → joinMix done rest = joinK rest := by
  intro rest
  induction rest with
  | nil => intro done _; rfl
  | cons e t ih =>
    intro done hall
    rw [joinMix, joinK, if_pos (hall e (List.mem_cons_self e t))]
    rw [ih done (fun e2 he2 => hall e2 (List.mem_cons_of_mem e he2))]

theorem strContains_iff_infix {hay needle : Str} :
    strContains hay needle = true ↔ needle <:+: hay := by
  unfold strContains
  rw [List.any_eq_true]
  constructor
  · rintro ⟨i, _, hp⟩
    exact infix_of_prefix_drop (List.isPrefixOf_iff_prefix.mp hp)
  · rintro ⟨s, t, hst⟩
    refine ⟨s.length, ?_, ?_⟩
    · rw [List.mem_range]
      have := congrArg List.length hst
      simp only [List.length_append] at this
      omega
    · rw [List.isPrefixOf_iff_prefix, ← hst, List.append_assoc, List.drop_left]
      exact List.prefix_append _ _

theorem mapping_value_unique :
    ∀ (m : List (Str × Str)), (m.map Prod.snd).Pairwise (· ≠ ·) →
      ∀ k₁ k₂ v, (k₁, v) ∈ m → (k₂, v) ∈ m → k₁ = k₂ := by
  intro m
  induction m with
  | nil => intro _ k₁ k₂ v h; exact absurd h (List.not_mem_nil _)
  | cons e t ih =>
    intro hpw k₁ k₂ v h₁ h₂
    rw [List.map_cons, List.pairwise_cons] at hpw
    rcases List.mem_cons.mp h₁ with h₁ | h₁ <;> rcases List.mem_cons.mp h₂ with h₂ | h₂
    · rw [← h₂] at h₁
      exact congrArg Prod.fst h₁
    · exact absurd rfl (h₁ ▸ hpw.1 v (List.mem_map_of_mem Prod.snd h₂))
    · exact absurd rfl (h₂ ▸ hpw.1 v (List.mem_map_of_mem Prod.snd h₁))
    · exact ih hpw.2 k₁ k₂ v h₁ h₂

theorem buildInverse_swap_aux :
    ∀ (m : List (Str × Str)) (acc : List (Str × Str)),
      (m.map Prod.snd).Pairwise (· ≠ ·) →
      (∀ kv ∈ m, kv.2 ∉ acc.map Prod.fst) →
      m.foldl (fun a kv => dictInsert a kv.2 kv.1) acc =
        acc ++ m.map (fun kv => (kv.2, kv.1)) := by
  intro m
  induction m with
  | nil => intro acc _ _; simp
  | cons e t ih =>
    intro acc hpw hfr
    rw [List.map_cons, List.pairwise_cons] at hpw
    rw [List.foldl_cons]
    have hstep : dictInsert acc e.2 e.1 = acc ++ [(e.2, e.1)] := by
      rw [dictInsert, if_neg]
      intro hc
      exact hfr e (List.mem_cons_self e t) (contains_true_iff_mem.mp hc)
    rw [hstep, ih (acc ++ [(e.2, e.1)]) hpw.2]
    · simp [List.append_assoc]
    · intro kv hkv
      rw [List.map_append, List.mem_append]
      rintro (hc | hc)
      · exact hfr kv (List.mem_cons_of_mem e hkv) hc
      · simp only [List.map_cons, List.map_nil, List.mem_singleton] at hc
        exact hpw.1 kv.2 (List.mem_map_of_mem Prod.snd hkv) hc.symm

theorem buildInverse_swap (m : List (Str × Str))
    (hnd : (m.map Prod.snd).Pairwise (· ≠ ·)) :
    buildInverse m = m.map (fun kv => (kv.2, kv.1)) := by
  unfold buildInverse
  rw [buildInverse_swap_aux m [] hnd (by simp)]
  simp

theorem scanRepl_skip_chunk (cond : Option Char → Str → Bool) {v : Str} (k : Str)
    (hv : IsPlaceholder v) {w : Str} (hw : '[' ∉ w) (z : Str) (prev : Option Char) :
    scanRepl cond v k prev (w ++ z) = w ++ scanRepl cond v k (lastChar w prev) z := by
  apply scanRepl_skip
  intro j hj hpre
  obtain ⟨mid, hm⟩ := placeholder_head hv
  cases hd : w.drop j with
  | nil =>
    have := congrArg List.length hd
    simp only [List.length_drop, List.length_nil] at this
    omega
  | cons c w2 =>
    rw [hm, hd, List.cons_append] at hpre
    have hc := (List.cons_prefix_cons.mp hpre).1
    have hcw : c ∈ w := List.mem_of_mem_drop (by rw [hd]; exact List.mem_cons_self _ _)
    rw [← hc] at hcw
    exact hw hcw

theorem scanRepl_skip_value (cond : Option Char → Str → Bool) (k v u : Str)
    (hkr : ']' ∉ k) (hu : IsPlaceholder u) (hninf : ¬ k <:+: u) (z : Str)
    (prev : Option Char) :
    scanRepl cond k v prev (u ++ z) = u ++ scanRepl cond k v (lastChar u prev) z := by
  apply scanRepl_skip
  intro j hj hpre
  rcases prefix_append_cases hpre with h1 | ⟨k2, hk2, _⟩
  · exact hninf (infix_of_prefix_drop h1)
  · apply hkr
    rw [hk2, List.mem_append]
    exact Or.inl (placeholder_rbracket_mem_drop hu hj)

theorem scanRepl_skip_other (cond : Option Char → Str → Bool) (v k u : Str)
    (hv : IsPlaceholder v) (hu : IsPlaceholder u) (hne : u ≠ v) (z : Str)
    (prev : Option Char) :
    scanRepl cond v k prev (u ++ z) = u ++ scanRepl cond v k (lastChar u prev) z := by
  apply scanRepl_skip
  intro j hj hpre
  rcases Nat.eq_zero_or_pos j with h0 | hpos
  · subst h0
    rw [List.drop_zero] at hpre
    exact hne (placeholder_prefix_append hv hu hpre).symm
  · obtain ⟨mid, hvm⟩ := placeholder_head hv
    cases hd : u.drop j with
    | nil =>
      have := congrArg List.length hd
      simp only [List.length_drop, List.length_nil] at this
      omega
    | cons c w2 =>
      rw [hvm, hd, List.cons_append] at hpre
      have hc := (List.cons_prefix_cons.mp hpre).1
      have hcm : c ∈ u.drop j := by rw [hd]; exact List.mem_cons_self _ _
      exact placeholder_drop_no_lbracket hu hpos c hcm hc.symm

theorem renderMix_mk (done : List Str) (h : Str) (r : List ((Str × Str) × Str)) :
    renderMix done ⟨h, r⟩ = h ++ joinMix done r := rfl

theorem renderK_mk (h : Str) (r : List ((Str × Str) × Str)) :
    renderK ⟨h, r⟩ = h ++ joinK r := rfl

/-- One pass of the literal-replacement scanner over a decomposed page: the
result is again a decomposition with the same original reading, each new
replacement site holding either the pair being applied or a pair already
present. -/
theorem scanRepl_lift (cond : Option Char → Str → Bool) (k v : Str)
    (hk : k ≠ []) (hkl : '[' ∉ k) (hkr : ']' ∉ k) :
    ∀ (N : Nat) (A : Alt) (prev : Option Char), (renderK A).length ≤ N →
      Chunked A →
      (∀ e ∈ A.rest, e.1.1 ≠ [] ∧ IsPlaceholder e.1.2 ∧ ¬ k <:+: e.1.2) →
      ∃ B : Alt, scanRepl cond k v prev (renderMix [] A) = renderMix [] B ∧
        renderK B = renderK A ∧ Chunked B ∧
        (∀ e ∈ B.rest, e.1 = (k, v) ∨ ∃ e' ∈ A.rest, e.1 = e'.1) := by
  intro N
  induction N with
  | zero =>
    intro A prev hlen hch hsites
    obtain ⟨hd, rest⟩ := A
    cases rest with
    | cons e t =>
      exfalso
      have hk1 : 0 < e.1.1.length :=
        List.length_pos.mpr (hsites e (List.mem_cons_self e t)).1
      rw [renderK_mk, joinK] at hlen
      simp only [List.length_append, Nat.le_zero] at hlen
      omega
    | nil =>
      cases hd with
      | cons c h2 =>
        exfalso
        rw [renderK_mk] at hlen
        simp only [List.length_append, List.length_cons, Nat.le_zero] at hlen
        omega
      | nil =>
        refine ⟨⟨[], []⟩, ?_, rfl, ⟨List.not_mem_nil _, fun e he =>
          absurd he (List.not_mem_nil e)⟩, fun e he => absurd he (List.not_mem_nil e)⟩
        rw [renderMix_mk, joinMix, List.append_nil]
        exact scanRepl_nil cond k v prev
  | succ N ih =>
    intro A prev hlen hch hsites
    obtain ⟨hd, rest⟩ := A
    cases hd with
    | nil =>
      cases rest with
      | nil =>
        refine ⟨⟨[], []⟩, ?_, rfl, ⟨List.not_mem_nil _, fun e he =>
          absurd he (List.not_mem_nil e)⟩, fun e he => absurd he (List.not_mem_nil e)⟩
        rw [renderMix_mk, joinMix, List.append_nil]
        exact scanRepl_nil cond k v prev
      | cons e t =>
        obtain ⟨hk_e, hpl_e, hninf_e⟩ := hsites e (List.mem_cons_self e t)
        have hsplit : renderMix [] (⟨[], e :: t⟩ : Alt) =
            e.1.2 ++ (e.2 ++ joinMix [] t) := by
          rw [renderMix_mk, joinMix, if_neg (List.not_mem_nil e.1.2),
            List.nil_append, List.append_assoc]
        rw [hsplit, scanRepl_skip_value cond k v e.1.2 hkr hpl_e hninf_e _ prev]
        have hlen2 : (renderK (⟨e.2, t⟩ : Alt)).length ≤ N := by
          rw [renderK_mk, joinK] at hlen
          rw [renderK_mk]
          have hk1 : 0 < e.1.1.length := List.length_pos.mpr hk_e
          simp only [List.length_append, List.nil_append] at hlen ⊢
          omega
        obtain ⟨B2, hB2e, hB2k, hB2c, hB2s⟩ := ih ⟨e.2, t⟩ (lastChar e.1.2 prev) hlen2
          ⟨hch.2 e (List.mem_cons_self e t), fun e2 he2 =>
            hch.2 e2 (List.mem_cons_of_mem e he2)⟩
          (fun e2 he2 => hsites e2 (List.mem_cons_of_mem e he2))
        refine ⟨⟨[], (e.1, B2.head) :: B2.rest⟩, ?_, ?_, ?_, ?_⟩
        · rw [← renderMix_mk [] e.2 t, hB2e]
          simp only [renderMix, joinMix]
          rw [if_neg (List.not_mem_nil e.1.2)]
          simp only [List.nil_append, List.append_assoc]
        · simp only [renderK, joinK] at hB2k ⊢
          simp only [List.nil_append, List.append_assoc] at hB2k ⊢
          rw [hB2k]
        · exact ⟨List.not_mem_nil _, fun e2 he2 => by
            rcases List.mem_cons.mp he2 with h | h
            · rw [h]; exact hB2c.1
            · exact hB2c.2 e2 h⟩
        · intro e2 he2
          rcases List.mem_cons.mp he2 with h | h
          · exact Or.inr ⟨e, List.mem_cons_self e t, by rw [h]⟩
          · rcases hB2s e2 h with h2 | ⟨e', he', heq⟩
            · exact Or.inl h2
            · exact Or.inr ⟨e', List.mem_cons_of_mem e he', heq⟩
    | cons c h2 =>
      by_cases hm : k.isPrefixOf ((c :: h2) ++ joinMix [] rest) = true ∧
          cond prev ((c :: h2) ++ joinMix [] rest) = true
      · -- a match at the start of the page: it lies entirely inside the chunk
        have hkpre : k <+: (c :: h2) := by
          have hp := List.isPrefixOf_iff_prefix.mp hm.1
          rcases prefix_append_cases hp with h1 | ⟨k2, hk2, hk2p⟩
          · exact h1
          · cases k2 with
            | nil =>
              rw [List.append_nil] at hk2
              exact hk2 ▸ List.prefix_refl _
            | cons d k3 =>
              exfalso
              cases hrest : rest with
              | nil =>
                rw [hrest, joinMix] at hk2p
                exact absurd (List.prefix_nil.mp hk2p) (by simp)
              | cons e t =>
                obtain ⟨_, hpl_e, _⟩ := hsites e (by rw [hrest]; exact List.mem_cons_self e t)
                obtain ⟨mid, hmid⟩ := placeholder_head hpl_e
                rw [hrest, joinMix, if_neg (List.not_mem_nil e.1.2), hmid] at hk2p
                simp only [List.cons_append] at hk2p
                have hd' := (List.cons_prefix_cons.mp hk2p).1
                apply hkl
                rw [hk2]
                exact List.mem_append.mpr (Or.inr (by rw [hd']; exact List.mem_cons_self _ _))
        obtain ⟨h2', hh2'⟩ := hkpre
        have hsplit : renderMix [] (⟨c :: h2, rest⟩ : Alt) =
            k ++ (h2' ++ joinMix [] rest) := by
          rw [renderMix_mk, ← hh2', List.append_assoc]
        have hcond2 : cond prev (k ++ (h2' ++ joinMix [] rest)) = true := by
          rw [← List.append_assoc, hh2']
          exact hm.2
        rw [hsplit, scanRepl_head cond k v (h2' ++ joinMix [] rest) prev hk hcond2]
        have hlen2 : (renderK (⟨h2', rest⟩ : Alt)).length ≤ N := by
          rw [renderK_mk] at hlen ⊢
          have hlc := congrArg List.length hh2'
          have hkpos : 0 < k.length := List.length_pos.mpr hk
          simp only [List.length_append, List.length_cons] at hlen hlc ⊢
          omega
        have hh2f : '[' ∉ h2' := by
          intro hc
          exact hch.1 (by rw [← hh2']; exact List.mem_append.mpr (Or.inr hc))
        obtain ⟨B2, hB2e, hB2k, hB2c, hB2s⟩ := ih ⟨h2', rest⟩ (lastChar k prev) hlen2
          ⟨hh2f, hch.2⟩ hsites
        refine ⟨⟨[], ((k, v), B2.head) :: B2.rest⟩, ?_, ?_, ?_, ?_⟩
        · rw [← renderMix_mk [] h2' rest, hB2e]
          simp only [renderMix, joinMix]
          rw [if_neg (List.not_mem_nil v)]
          simp only [List.nil_append, List.append_assoc]
        · simp only [renderK, joinK] at hB2k ⊢
          simp only [List.nil_append, List.append_assoc] at hB2k ⊢
          rw [hB2k, ← hh2']
          simp only [List.cons_append, List.append_assoc]
        · exact ⟨List.not_mem_nil _, fun e2 he2 => by
            rcases List.mem_cons.mp he2 with h | h
            · rw [h]; exact hB2c.1
            · exact hB2c.2 e2 h⟩
        · intro e2 he2
          rcases List.mem_cons.mp he2 with h | h
          · exact Or.inl (by rw [h])
          · exact hB2s e2 h
      · -- no match at the start: emit the first chunk character
        have hshape : renderMix [] (⟨c :: h2, rest⟩ : Alt) =
            c :: (h2 ++ joinMix [] rest) := by
          rw [renderMix_mk, List.cons_append]
        rw [hshape, scanRepl_cons]
        rw [if_neg (fun hcontra => hm ⟨by
            rw [← List.cons_append] at hcontra
            exact hcontra.2.1, by
            rw [← List.cons_append] at hcontra
            exact hcontra.2.2⟩)]
        have hlen2 : (renderK (⟨h2, rest⟩ : Alt)).length ≤ N := by
          rw [renderK_mk] at hlen ⊢
          simp only [List.length_append, List.length_cons] at hlen ⊢
          omega
        have hcfree : ¬ ('[' = c ∨ '[' ∈ h2) := fun h => hch.1 (List.mem_cons.mpr h)
        obtain ⟨B2, hB2e, hB2k, hB2c, hB2s⟩ := ih ⟨h2, rest⟩ (some c) hlen2
          ⟨fun h => hcfree (Or.inr h), hch.2⟩ hsites
        refine ⟨⟨c :: B2.head, B2.rest⟩, ?_, ?_, ?_, ?_⟩
        · rw [← renderMix_mk [] h2 rest, hB2e]
          simp only [renderMix]
          simp only [List.cons_append]
        · simp only [renderK] at hB2k ⊢
          simp only [List.cons_append]
          rw [hB2k]
        · refine ⟨fun h => ?_, hB2c.2⟩
          rcases List.mem_cons.mp h with h | h
          · exact hcfree (Or.inl h)
          · exact hB2c.1 h
        · exact hB2s

/-- `_perform_safe_replacement` is one scanner pass, under the word-boundary
condition or (validation fallback) the always-true condition. -/
theorem performSafeReplacement_scan (text k v : Str) :
    ∃ cond, performSafeReplacement text k v = scanRepl cond k v none text := by
  unfold performSafeReplacement wbSub replaceAll
  by_cases h : validationFails v (scanRepl (wbCond k) k v none text) = true
  · exact ⟨fun _ _ => true, by rw [if_pos h]⟩
  · exact ⟨wbCond k, by rw [if_neg h]⟩

/-- The whole second pass of `anonymize_texts` over one page, as a
decomposition rewrite. -/
theorem anonymizePage_lift (m : List (Str × Str))
    (hgood : ∀ kv ∈ m, kv.1 ≠ [] ∧ '[' ∉ kv.1 ∧ ']' ∉ kv.1 ∧ IsPlaceholder kv.2)
    (hninf : ∀ kv ∈ m, ∀ kv' ∈ m, ¬ kv.1 <:+: kv'.2) :
    ∀ (entries : List (Str × Str)), (∀ kv ∈ entries, kv ∈ m) →
      ∀ (A : Alt), Chunked A → SitesIn m A →
      ∃ B : Alt, anonymizePage entries (renderMix [] A) = renderMix [] B ∧
        renderK B = renderK A ∧ Chunked B ∧ SitesIn m B := by
  intro entries
  induction entries with
  | nil => exact fun _ A hch hsi => ⟨A, rfl, rfl, hch, hsi⟩
  | cons kv t ih =>
    intro hsub A hch hsi
    have hkv : kv ∈ m := hsub kv (List.mem_cons_self kv t)
    obtain ⟨hk1, hk2, hk3, _⟩ := hgood kv hkv
    obtain ⟨cond, hcond⟩ := performSafeReplacement_scan (renderMix [] A) kv.1 kv.2
    obtain ⟨B1, hB1e, hB1k, hB1c, hB1s⟩ := scanRepl_lift cond kv.1 kv.2 hk1 hk2 hk3
      (renderK A).length A none le_rfl hch
      (fun e he => ⟨(hgood e.1 (hsi e he)).1, (hgood e.1 (hsi e he)).2.2.2,
        hninf kv hkv e.1 (hsi e he)⟩)
    have hsi1 : SitesIn m B1 := by
      intro e he
      rcases hB1s e he with h | ⟨e', he', heq⟩
      · rw [h]; exact hkv
      · rw [heq]; exact hsi e' he'
    obtain ⟨B, hBe, hBk, hBc, hBs⟩ := ih (fun q hq => hsub q (List.mem_cons_of_mem kv hq))
      B1 hB1c hsi1
    refine ⟨B, ?_, hBk.trans hB1k, hBc, hBs⟩
    have hstep : anonymizePage (kv :: t) (renderMix [] A) =
        anonymizePage t (performSafeReplacement (renderMix [] A) kv.1 kv.2) := rfl
    rw [hstep, hcond, hB1e, hBe]

/-- One reversal pass over the tail of a decomposition: replacing the value `v`
by its original `k` reveals exactly the pending sites of `v`. -/
theorem revert_tail (m : List (Str × Str))
    (hgood : ∀ kv ∈ m, kv.1 ≠ [] ∧ '[' ∉ kv.1 ∧ ']' ∉ kv.1 ∧ IsPlaceholder kv.2)
    (hnd : (m.map Prod.snd).Pairwise (· ≠ ·))
    (k v : Str) (hkv : (k, v) ∈ m) (done : List Str) :
    ∀ (rest : List ((Str × Str) × Str)), (∀ e ∈ rest, e.1 ∈ m ∧ '[' ∉ e.2) →
      ∀ prev, scanRepl (fun _ _ => true) v k prev (joinMix done rest) =
        joinMix (v :: done) rest := by
  have hvpl : IsPlaceholder v := (hgood (k, v) hkv).2.2.2
  intro rest
  induction rest with
  | nil => intro _ prev; rw [joinMix, joinMix]; exact scanRepl_nil _ _ _ _
  | cons e t ih =>
    intro hr prev
    obtain ⟨hem, hec⟩ := hr e (List.mem_cons_self e t)
    have hrt : ∀ e2 ∈ t, e2.1 ∈ m ∧ '[' ∉ e2.2 :=
      fun e2 he2 => hr e2 (List.mem_cons_of_mem e he2)
    have hpl : IsPlaceholder e.1.2 := (hgood e.1 hem).2.2.2
    have hkeyf : '[' ∉ e.1.1 := (hgood e.1 hem).2.1
    rw [joinMix, joinMix]
    by_cases hdone : e.1.2 ∈ done
    · rw [if_pos hdone, if_pos (List.mem_cons_of_mem v hdone)]
      rw [List.append_assoc, List.append_assoc,
        scanRepl_skip_chunk _ k hvpl hkeyf _ prev,
        scanRepl_skip_chunk _ k hvpl hec _ _, ih hrt _]
    · rw [if_neg hdone]
      by_cases hveq : e.1.2 = v
      · have hem' : (e.1.1, v) ∈ m := by rw [← hveq]; exact hem
        have hkeq : e.1.1 = k := mapping_value_unique m hnd e.1.1 k v hem' hkv
        rw [if_pos (by rw [hveq]; exact List.mem_cons_self v done)]
        rw [hveq, hkeq, List.append_assoc, List.append_assoc,
          scanRepl_head _ v k _ prev (placeholder_ne_nil hvpl) rfl,
          scanRepl_skip_chunk _ k hvpl hec _ _, ih hrt _]
      · rw [if_neg (by
          intro hc
          rcases List.mem_cons.mp hc with hc | hc
          · exact hveq hc
          · exact hdone hc)]
        rw [List.append_assoc, List.append_assoc,
          scanRepl_skip_other _ v k e.1.2 hvpl hpl hveq _ prev,
          scanRepl_skip_chunk _ k hvpl hec _ _, ih hrt _]

/-- One full reversal pass (`str.replace(value, original)`) over a decomposed
page. -/
theorem revert_pass (m : List (Str × Str))
    (hgood : ∀ kv ∈ m, kv.1 ≠ [] ∧ '[' ∉ kv.1 ∧ ']' ∉ kv.1 ∧ IsPlaceholder kv.2)
    (hnd : (m.map Prod.snd).Pairwise (· ≠ ·))
    (k v : Str) (hkv : (k, v) ∈ m) (done : List Str) (A : Alt)
    (hch : Chunked A) (hsi : SitesIn m A) :
    replaceAll v k (renderMix done A) = renderMix (v :: done) A := by
  have hvpl : IsPlaceholder v := (hgood (k, v) hkv).2.2.2
  unfold replaceAll
  simp only [renderMix]
  rw [scanRepl_skip_chunk _ k hvpl hch.1 _ none,
    revert_tail m hgood hnd k v hkv done A.rest (fun e he => ⟨hsi e he, hch.2 e he⟩) _]

/-- Folding the reversal passes over a list of inverse entries reveals every
value in that list. -/
theorem revert_fold (m : List (Str × Str))
    (hgood : ∀ kv ∈ m, kv.1 ≠ [] ∧ '[' ∉ kv.1 ∧ ']' ∉ kv.1 ∧ IsPlaceholder kv.2)
    (hnd : (m.map Prod.snd).Pairwise (· ≠ ·)) :
    ∀ (ps : List (Str × Str)) (done : List Str) (A : Alt),
      (∀ q ∈ ps, (q.2, q.1) ∈ m) → Chunked A → SitesIn m A →
      ps.foldl (fun t kv => replaceAll kv.1 kv.2 t) (renderMix done A) =
        renderMix ((ps.map Prod.fst).reverse ++ done) A := by
  intro ps
  induction ps with
  | nil => intro done A _ _ _; simp
  | cons q tps ih =>
    intro done A hps hch hsi
    rw [List.foldl_cons,
      revert_pass m hgood hnd q.2 q.1 (hps q (List.mem_cons_self q tps)) done A hch hsi,
      ih (q.1 :: done) A (fun q2 hq2 => hps q2 (List.mem_cons_of_mem q hq2)) hch hsi]
    simp [List.append_assoc]

/-- When every site value has been reverted, the mixed reading is the original
reading. -/
theorem renderMix_eq_renderK (done : List Str) (A : Alt)
    (h : ∀ e ∈ A.rest, e.1.2 ∈ done) : renderMix done A = renderK A := by
  simp only [renderMix, renderK]
  rw [renderMix_full A.rest done h]

/-- The session-reversal rewrite of one decomposed page restores its original
reading. -/
theorem revertPage_eq (m : List (Str × Str))
    (hgood : ∀ kv ∈ m, kv.1 ≠ [] ∧ '[' ∉ kv.1 ∧ ']' ∉ kv.1 ∧ IsPlaceholder kv.2)
    (hnd : (m.map Prod.snd).Pairwise (· ≠ ·)) (A : Alt)
    (hch : Chunked A) (hsi : SitesIn m A) :
    revertPage (buildInverse m) (renderMix [] A) = renderK A := by
  unfold revertPage
  rw [buildInverse_swap m hnd]
  rw [revert_fold m hgood hnd (sortStable (lenDescBy Prod.fst)
      (m.map fun kv => (kv.2, kv.1))) [] A ?_ hch hsi]
  · apply renderMix_eq_renderK
    intro e he
    rw [List.append_nil, List.mem_reverse]
    have hmem : (e.1.2, e.1.1) ∈ m.map fun kv => (kv.2, kv.1) :=
      List.mem_map.mpr ⟨e.1, hsi e he, rfl⟩
    have hsrt : (e.1.2, e.1.1) ∈ sortStable (lenDescBy Prod.fst)
        (m.map fun kv => (kv.2, kv.1)) := (mem_sortStable _ _ _).mpr hmem
    exact List.mem_map.mpr ⟨(e.1.2, e.1.1), hsrt, rfl⟩
  · intro q hq
    have hq2 := (mem_sortStable _ _ _).mp hq
    obtain ⟨kv, hkv, hswap⟩ := List.mem_map.mp hq2
    rw [← hswap]
    exact hkv

theorem map_eq_self_of_eq {α : Type} (f : α → α) :
    ∀ (l : List α), (∀ a ∈ l, f a = a) → l.map f = l := by
  intro l
  induction l with
  | nil => intro _; rfl
  | cons a t ih =>
    intro h
    rw [List.map_cons, h a (List.mem_cons_self a t),
      ih (fun b hb => h b (List.mem_cons_of_mem a hb))]

/-- Round trip of one page through the anonymisation rewrite and the session
reversal. -/
theorem page_roundtrip (m : List (Str × Str))
    (hgood : ∀ kv ∈ m, kv.1 ≠ [] ∧ '[' ∉ kv.1 ∧ ']' ∉ kv.1 ∧ IsPlaceholder kv.2)
    (hninf : ∀ kv ∈ m, ∀ kv' ∈ m, ¬ kv.1 <:+: kv'.2)
    (hnd : (m.map Prod.snd).Pairwise (· ≠ ·))
    (page : Str) (hp : '[' ∉ page) :
    revertPage (buildInverse m)
      (anonymizePage (sortStable (lenDescBy Prod.fst) m) page) = page := by
  have hA0 : renderMix [] ⟨page, []⟩ = page := by
    rw [renderMix_mk, joinMix, List.append_nil]
  obtain ⟨B, hBe, hBk, hBc, hBs⟩ := anonymizePage_lift m hgood hninf
    (sortStable (lenDescBy Prod.fst) m)
    (fun kv hkv => (mem_sortStable _ _ _).mp hkv)
    ⟨page, []⟩ ⟨hp, fun e he => absurd he (List.not_mem_nil e)⟩
    (fun e he => absurd he (List.not_mem_nil e))
  rw [← hA0, hBe, revertPage_eq m hgood hnd B hBc hBs, hBk,
    renderK_mk, joinK, List.append_nil, hA0]

/-- C1, claim as stated, refuted: even when every sensitive original occurs in
the pages and all replacement values produced by the run are pairwise
distinct, reversal applied to the output of `anonymize_texts` need not
restore the original pages — a page that already contains placeholder-shaped
text is corrupted.  Witness input: page `"[PESSOA_1] e Joao"` with the single
detected item `("Joao", PESSOA)`; the run maps `Joao ↦ [PESSOA_1]`, the
anonymised page is `"[PESSOA_1] e [PESSOA_1]"`, and reversal returns
`"Joao e Joao"`. -/
theorem C1_counterexample :
    ¬ ∀ (pages : List Str) (items : List (Str × EntityType)),
        (∀ it ∈ items, ∃ p ∈ pages, strContains p it.1 = true) →
        ((anonymizeTexts pages items).2.map Prod.snd).Pairwise (· ≠ ·) →
        reverterSessao (anonymizeTexts pages items).1
          (anonymizeTexts pages items).2 = pages := by
  intro h
  exact absurd (h [lc "[PESSOA_1] e Joao"] [(lc "Joao", EntityType.PESSOA)]
    (by decide) (by decide)) (by decide)

/-- C1 (corrected): the round trip
`reverter_sessao (anonymize_texts pages items) = pages` holds provided the
original pages contain no `[` character (so no pre-existing text can collide
with the generated placeholders), and every key of the produced mapping is
nonempty, bracket-free, and not a substring of any produced replacement
value.  Distinctness of the replacement values and their placeholder shape
are properties of the run itself and are not assumed. -/
theorem C1_amended (pages : List Str) (items : List (Str × EntityType))
    (hfresh : ∀ p ∈ pages, '[' ∉ p)
    (hkeys : ∀ kv ∈ (anonymizeTexts pages items).2,
        kv.1 ≠ [] ∧ '[' ∉ kv.1 ∧ ']' ∉ kv.1)
    (hninf : ∀ kv ∈ (anonymizeTexts pages items).2,
        ∀ kv' ∈ (anonymizeTexts pages items).2, strContains kv'.2 kv.1 = false) :
    reverterSessao (anonymizeTexts pages items).1
      (anonymizeTexts pages items).2 = pages := by
  by_cases hguard : pages = [] ∨ items = []
  · have hanon : anonymizeTexts pages items = (pages, []) := by
      unfold anonymizeTexts
      rw [if_pos hguard]
    rw [hanon]
    show pages.map (revertPage (buildInverse [])) = pages
    exact map_eq_self_of_eq _ pages (fun p _ => rfl)
  · have hanon : anonymizeTexts pages items =
        (pages.map (anonymizePage (sortStable (lenDescBy Prod.fst)
          (buildMapping items (fun _ => 0) []).2)),
         (buildMapping items (fun _ => 0) []).2) := by
      unfold anonymizeTexts
      rw [if_neg hguard]
    have h2 : (anonymizeTexts pages items).2 =
        (buildMapping items (fun _ => 0) []).2 := by rw [hanon]
    rw [h2] at hkeys hninf
    have hinv0 : MappingInv (fun _ => 0) [] := by
      intro v hv
      simp at hv
    have hshape : ∀ kv ∈ (buildMapping items (fun _ => 0) []).2,
        IsPlaceholder kv.2 := by
      intro kv hkv
      obtain ⟨t, n, hv, _⟩ := buildMapping_values_shape items (fun _ => 0) [] hinv0
        kv.2 (List.mem_map_of_mem Prod.snd hkv)
      exact ⟨t, n, hv⟩
    have hnd : ((buildMapping items (fun _ => 0) []).2.map Prod.snd).Pairwise
        (· ≠ ·) := buildMapping_values_distinct items (fun _ => 0) [] hinv0 (by simp)
    have hgood : ∀ kv ∈ (buildMapping items (fun _ => 0) []).2,
        kv.1 ≠ [] ∧ '[' ∉ kv.1 ∧ ']' ∉ kv.1 ∧ IsPlaceholder kv.2 := by
      intro kv hkv
      obtain ⟨h1, h2, h3⟩ := hkeys kv hkv
      exact ⟨h1, h2, h3, hshape kv hkv⟩
    have hninf2 : ∀ kv ∈ (buildMapping items (fun _ => 0) []).2,
        ∀ kv' ∈ (buildMapping items (fun _ => 0) []).2, ¬ kv.1 <:+: kv'.2 := by
      intro kv hkv kv' hkv' hinfix
      have hc := strContains_iff_infix.mpr hinfix
      rw [hninf kv hkv kv' hkv'] at hc
      exact Bool.false_ne_true hc
    rw [hanon]
    show (pages.map (anonymizePage (sortStable (lenDescBy Prod.fst)
        (buildMapping items (fun _ => 0) []).2))).map
      (revertPage (buildInverse (buildMapping items (fun _ => 0) []).2)) = pages
    rw [List.map_map]
    exact map_eq_self_of_eq _ pages
      (fun p hp => page_roundtrip _ hgood hninf2 hnd p (hfresh p hp))

/-- `C1_amended` at a concrete input: pages `["Maria e Pedro"]` with detected
items Maria and Pedro, both PESSOA; anonymisation yields
`"[PESSOA_1] e [PESSOA_2]"` and reversal restores the original page. -/
theorem C1_witness :
    (∀ p ∈ [lc "Maria e Pedro"], '[' ∉ p) ∧
    (∀ kv ∈ (anonymizeTexts [lc "Maria e Pedro"]
        [(lc "Maria", EntityType.PESSOA), (lc "Pedro", EntityType.PESSOA)]).2,
      kv.1 ≠ [] ∧ '[' ∉ kv.1 ∧ ']' ∉ kv.1) ∧
    (∀ kv ∈ (anonymizeTexts [lc "Maria e Pedro"]
        [(lc "Maria", EntityType.PESSOA), (lc "Pedro", EntityType.PESSOA)]).2,
      ∀ kv' ∈ (anonymizeTexts [lc "Maria e Pedro"]
        [(lc "Maria", EntityType.PESSOA), (lc "Pedro", EntityType.PESSOA)]).2,
      strContains kv'.2 kv.1 = false) ∧
    reverterSessao (anonymizeTexts [lc "Maria e Pedro"]
        [(lc "Maria", EntityType.PESSOA), (lc "Pedro", EntityType.PESSOA)]).1
      (anonymizeTexts [lc "Maria e Pedro"]
        [(lc "Maria", EntityType.PESSOA), (lc "Pedro", EntityType.PESSOA)]).2 =
      [lc "Maria e Pedro"] :=
  ⟨by decide, by decide, by decide,
    C1_amended [lc "Maria e Pedro"]
      [(lc "Maria", EntityType.PESSOA), (lc "Pedro", EntityType.PESSOA)]
      (by decide) (by decide) (by decide)⟩

end Anon
